import Mathlib

/-! gamgee: per-sample field iterator, synchronized variant reader, SAM header

A shallow embedding of

* `gamgee/variant_field_iterator.h`  (`VariantFieldIterator<TYPE>` and its `uint8_t` specialisation),
* `gamgee/variant/synced_variant_reader.h`  (`SyncedVariantReader` constructor),
* `gamgee/sam/sam_header.cpp`  (`SamHeader::read_groups`, `SamHeader::sequence_length`),

followed by the properties established about them.

Conventions.  Addresses (`uint8_t*`) and `int` values are `Int`, with no overflow of `int`
or of pointer arithmetic assumed; `uint32_t` and `size_t` arithmetic is written on `Nat`
with an explicit `% 2 ^ 32` / `% 2 ^ 64` wherever the source computes in that type.
-/

set_option autoImplicit false

namespace gamgee

/-! ## Data model -/

/-- Exceptions thrown by the embedded code. -/
inductive Exception where
  | out_of_range
  | HtslibException (code : Int)
  | FileOpenException (filename : String)
deriving DecidableEq, Repr

/-- The part of htslib's `bcf1_t` that the iterator reads.  `addr` is the address of the record,
the identity compared by `shared_ptr::operator==`; `n_sample` is the 24-bit sample count. -/
structure bcf1_t where
  addr : Nat
  n_sample : Nat
deriving DecidableEq, Repr

/-- The part of htslib's `bcf_fmt_t` that the iterator reads: `int size` (bytes per sample)
and `uint8_t *p` (address of the field's data). -/
structure bcf_fmt_t where
  size : Int
  p : Int
deriving DecidableEq, Repr

/-- Comparison `a == b` of two `std::shared_ptr<bcf1_t>`: the stored addresses are compared. -/
def shared_ptr_eq (a b : bcf1_t) : Bool := a.addr == b.addr

/-- The composite value `TYPE{m_body, m_format_ptr, m_data_ptr}` the generic iterator returns:
the record, the field descriptor and the address of the sample's data. -/
structure TYPE where
  m_body : bcf1_t
  m_format_ptr : bcf_fmt_t
  m_data_ptr : Int
deriving DecidableEq, Repr

/-- The private members of `VariantFieldIterator` (variant_field_iterator.h:184-186). -/
structure VariantFieldIterator where
  m_body : bcf1_t
  m_format_ptr : bcf_fmt_t
  m_data_ptr : Int
deriving DecidableEq, Repr

/-- Byte-addressed memory, read by the `uint8_t` specialisation. -/
abbrev Memory := Int → Nat

/-- Modelled from the spec: `utils::check_boundaries(index, size)` lives in utils/utils.h, which is
not among the sources.  Section 4.1: an access "fails with an OutOfRange error if
`sample_index >= sample_count`". -/
def utils.check_boundaries (index size : Nat) : Except Exception Unit :=
  if size ≤ index then .error .out_of_range else .ok ()

namespace VariantFieldIterator

/-! ## `VariantFieldIterator<TYPE>` (generic) -/

/-- Constructor (variant_field_iterator.h:42-46):
`m_data_ptr {end_iterator ? format_ptr->p + m_format_ptr->size * m_body->n_sample : format_ptr->p}`. -/
def new (body : bcf1_t) (format_ptr : bcf_fmt_t) (end_iterator : Bool) : VariantFieldIterator :=
  { m_body := body
    m_format_ptr := format_ptr
    m_data_ptr := if end_iterator then format_ptr.p + format_ptr.size * (body.n_sample : Int)
                  else format_ptr.p }

/-- Member `operator+=` (lines 85-88): `m_data_ptr += n * m_format_ptr->size`. -/
def operator_add_assign (it : VariantFieldIterator) (n : Int) : VariantFieldIterator :=
  { it with m_data_ptr := it.m_data_ptr + n * it.m_format_ptr.size }

/-- Member `operator-=` (lines 93-96): `m_data_ptr -= n * m_format_ptr->size`. -/
def operator_sub_assign (it : VariantFieldIterator) (n : Int) : VariantFieldIterator :=
  { it with m_data_ptr := it.m_data_ptr - n * it.m_format_ptr.size }

/-- Member `operator==` (lines 101-103). -/
def operator_eq (it other : VariantFieldIterator) : Bool :=
  shared_ptr_eq it.m_body other.m_body && decide (it.m_data_ptr = other.m_data_ptr)

/-- Member `operator!=` (lines 108-110). -/
def operator_ne (it other : VariantFieldIterator) : Bool :=
  !(shared_ptr_eq it.m_body other.m_body) || decide (it.m_data_ptr ≠ other.m_data_ptr)

/-- Member `operator<` (lines 116-118). -/
def operator_lt (it other : VariantFieldIterator) : Bool :=
  shared_ptr_eq it.m_body other.m_body && decide (it.m_data_ptr < other.m_data_ptr)

/-- Member `operator>` (lines 123-125). -/
def operator_gt (it other : VariantFieldIterator) : Bool :=
  shared_ptr_eq it.m_body other.m_body && decide (it.m_data_ptr > other.m_data_ptr)

/-- Member `operator<=` (lines 130-132). -/
def operator_le (it other : VariantFieldIterator) : Bool :=
  shared_ptr_eq it.m_body other.m_body && decide (it.m_data_ptr ≤ other.m_data_ptr)

/-- Member `operator>=` (lines 137-139). -/
def operator_ge (it other : VariantFieldIterator) : Bool :=
  shared_ptr_eq it.m_body other.m_body && decide (it.m_data_ptr ≥ other.m_data_ptr)

/-- Member `operator*` (lines 145-147). -/
def operator_deref (it : VariantFieldIterator) : TYPE :=
  ⟨it.m_body, it.m_format_ptr, it.m_data_ptr⟩

/-- Member `operator++` (lines 155-158): the updated iterator and the returned value. -/
def operator_inc (it : VariantFieldIterator) : VariantFieldIterator × TYPE :=
  let it1 : VariantFieldIterator := { it with m_data_ptr := it.m_data_ptr + it.m_format_ptr.size }
  (it1, ⟨it1.m_body, it1.m_format_ptr, it1.m_data_ptr⟩)

/-- Member `operator--` (lines 166-169): the updated iterator and the returned value. -/
def operator_dec (it : VariantFieldIterator) : VariantFieldIterator × TYPE :=
  let it1 : VariantFieldIterator := { it with m_data_ptr := it.m_data_ptr - it.m_format_ptr.size }
  (it1, ⟨it1.m_body, it1.m_format_ptr, it1.m_data_ptr⟩)

/-- Member `operator[]` (lines 178-181).  `sample * m_body->n_sample` is a product of a
`uint32_t` and the promoted 24-bit field, computed in `unsigned int`. -/
def operator_index (it : VariantFieldIterator) (sample : Nat) : Except Exception TYPE :=
  match utils.check_boundaries sample it.m_body.n_sample with
  | .error e => .error e
  | .ok _ =>
    .ok ⟨it.m_body, it.m_format_ptr,
         it.m_data_ptr + (((sample * it.m_body.n_sample) % 2 ^ 32 : Nat) : Int)⟩

/-! ## `VariantFieldIterator<uint8_t>` (specialisation) -/

/-- Specialised `operator*` (lines 197-200): `return *m_data_ptr`. -/
def operator_deref_uint8 (mem : Memory) (it : VariantFieldIterator) : Nat :=
  mem it.m_data_ptr

/-- Specialised `operator++` (lines 207-211): `++m_data_ptr; return *m_data_ptr`. -/
def operator_inc_uint8 (mem : Memory) (it : VariantFieldIterator) : VariantFieldIterator × Nat :=
  let it1 : VariantFieldIterator := { it with m_data_ptr := it.m_data_ptr + 1 }
  (it1, mem it1.m_data_ptr)

/-- Specialised `operator--` (lines 218-222): `--m_data_ptr; return *m_data_ptr`. -/
def operator_dec_uint8 (mem : Memory) (it : VariantFieldIterator) : VariantFieldIterator × Nat :=
  let it1 : VariantFieldIterator := { it with m_data_ptr := it.m_data_ptr - 1 }
  (it1, mem it1.m_data_ptr)

/-- Specialised `operator[]` (lines 229-233): `return m_data_ptr[sample]`. -/
def operator_index_uint8 (mem : Memory) (it : VariantFieldIterator) (sample : Nat) :
    Except Exception Nat :=
  match utils.check_boundaries sample it.m_body.n_sample with
  | .error e => .error e
  | .ok _ => .ok (mem (it.m_data_ptr + (sample : Int)))

/-! ## Derived notions used to state the properties -/

/-- Byte offset of the cursor from the start of the field's data. -/
def offset (it : VariantFieldIterator) : Int := it.m_data_ptr - it.m_format_ptr.p

/-- The iterator after `k` applications of the generic `operator++`. -/
def increments : Nat → VariantFieldIterator → VariantFieldIterator
  | 0, it => it
  | k + 1, it => increments k (operator_inc it).1

/-- The iterator after `k` applications of the specialised `operator++`. -/
def increments_uint8 (mem : Memory) : Nat → VariantFieldIterator → VariantFieldIterator
  | 0, it => it
  | k + 1, it => increments_uint8 mem k (operator_inc_uint8 mem it).1

/-- The loop `for (; it != last; ++it) visit(*it)` with the generic operators: the addresses
of the values visited, or `none` when `fuel` iterations do not reach `last`. -/
def traverse : Nat → VariantFieldIterator → VariantFieldIterator → Option (List Int)
  | 0, _, _ => none
  | fuel + 1, it, last =>
    if operator_ne it last then
      (traverse fuel (operator_inc it).1 last).map (fun rest => (operator_deref it).m_data_ptr :: rest)
    else some []

/-- The loop `for (; it != last; ++it) visit(*it)` with the specialised operators: the addresses
`operator*` reads, or `none` when `fuel` iterations do not reach `last`. -/
def traverse_uint8 (mem : Memory) :
    Nat → VariantFieldIterator → VariantFieldIterator → Option (List Int)
  | 0, _, _ => none
  | fuel + 1, it, last =>
    if operator_ne it last then
      (traverse_uint8 mem fuel (operator_inc_uint8 mem it).1 last).map
        (fun rest => it.m_data_ptr :: rest)
    else some []

/-- The iterator after `k` applications of the generic `operator--`. -/
def decrements : Nat → VariantFieldIterator → VariantFieldIterator
  | 0, it => it
  | k + 1, it => decrements k (operator_dec it).1

/-- The loop `while (it != last) { read *it; ++it; }` with the specialised operators: the
addresses of the bytes read, in order.  Each iteration reads two bytes: `operator*` reads the
byte at the cursor, and `operator++` reads the byte at the cursor it has just advanced to (its
return value).  `none` when `fuel` iterations do not reach `last`. -/
def traverse_uint8_reads (mem : Memory) :
    Nat → VariantFieldIterator → VariantFieldIterator → Option (List Int)
  | 0, _, _ => none
  | fuel + 1, it, last =>
    if operator_ne it last then
      (traverse_uint8_reads mem fuel (operator_inc_uint8 mem it).1 last).map
        (fun rest => it.m_data_ptr :: (operator_inc_uint8 mem it).1.m_data_ptr :: rest)
    else some []

end VariantFieldIterator

/-! ## `SyncedVariantReader` constructor (synced_variant_reader.h:52-71) -/

/-- The C string that `s.c_str()` hands to a C function: the characters of the `std::string`
before its first NUL character (all of them when it has none). -/
def string.c_str (s : String) : String :=
  String.mk (s.toList.takeWhile (fun c => c ≠ Char.ofNat 0))

/-- The part of htslib's `bcf_srs_t` the constructor writes itself (`require_index`); everything
else the library keeps in the reader is the abstract component `rest`. -/
structure bcf_srs_t (σ : Type) where
  require_index : Int
  rest : σ

/-- The htslib functions the constructor calls.  htslib is an external library: its functions
are parameters of the embedding.  Each takes the reader it is handed and its C-string argument
and returns the reader it leaves together with its `int` result. -/
structure Htslib (σ : Type) where
  bcf_sr_init : bcf_srs_t σ
  bcf_sr_set_regions : bcf_srs_t σ → String → Int → bcf_srs_t σ × Int
  bcf_sr_add_reader : bcf_srs_t σ → String → bcf_srs_t σ × Int

/-- One call into htslib: the reader handed to it, the C string and flag it receives, and its
result. -/
inductive HtsCall (σ : Type) where
  | set_regions (reader : bcf_srs_t σ) (regions : String) (is_file : Int) (ret : Int)
  | add_reader (reader : bcf_srs_t σ) (filename : String) (ret : Int)

/-- The object a successful construction yields: its only member `m_synced_readers`. -/
structure SyncedVariantReader (σ : Type) where
  m_synced_readers : bcf_srs_t σ

namespace SyncedVariantReader

variable {σ : Type}

/-- Lines 55-63: the interval handling.  Returns the htslib calls made and the reader left, or
the exception thrown. -/
def set_intervals (lib : Htslib σ) (readers : bcf_srs_t σ) (interval_list : String) :
    List (HtsCall σ) × Except Exception (bcf_srs_t σ) :=
  if interval_list = "" then
    ([], .ok { readers with require_index := 1 })
  else
    let r := lib.bcf_sr_set_regions readers (string.c_str interval_list) 0
    if r.2 ≠ 0 then
      ([HtsCall.set_regions readers (string.c_str interval_list) 0 r.2],
        .error (.HtslibException r.2))
    else
      ([HtsCall.set_regions readers (string.c_str interval_list) 0 r.2], .ok r.1)

/-- Lines 65-70: the registration loop over `filenames`. -/
def add_readers (lib : Htslib σ) :
    bcf_srs_t σ → List String → List (HtsCall σ) × Except Exception (bcf_srs_t σ)
  | readers, [] => ([], .ok readers)
  | readers, filename :: rest =>
    let r := lib.bcf_sr_add_reader readers (string.c_str filename)
    if r.2 ≠ 1 then
      ([HtsCall.add_reader readers (string.c_str filename) r.2],
        .error (.FileOpenException filename))
    else
      (HtsCall.add_reader readers (string.c_str filename) r.2 :: (add_readers lib r.1 rest).1,
        (add_readers lib r.1 rest).2)

/-- The constructor (lines 52-71): the htslib calls it makes, in order, and its outcome. -/
def new (lib : Htslib σ) (filenames : List String) (interval_list : String) :
    List (HtsCall σ) × Except Exception (SyncedVariantReader σ) :=
  match set_intervals lib lib.bcf_sr_init interval_list with
  | (calls, .error e) => (calls, .error e)
  | (calls, .ok readers) =>
    (calls ++ (add_readers lib readers filenames).1,
      match (add_readers lib readers filenames).2 with
      | .error e => .error e
      | .ok r => .ok ⟨r⟩)

/-- The C strings handed to `bcf_sr_add_reader`, in call order. -/
def attempted : List (HtsCall σ) → List String
  | [] => []
  | HtsCall.add_reader _ f _ :: cs => f :: attempted cs
  | HtsCall.set_regions _ _ _ _ :: cs => attempted cs

/-- The C strings whose `bcf_sr_add_reader` call returned 1, in call order. -/
def registered : List (HtsCall σ) → List String
  | [] => []
  | HtsCall.add_reader _ f ret :: cs => if ret = 1 then f :: registered cs else registered cs
  | HtsCall.set_regions _ _ _ _ :: cs => registered cs

/-- The results of the `bcf_sr_add_reader` calls, in call order. -/
def add_reader_results : List (HtsCall σ) → List Int
  | [] => []
  | HtsCall.add_reader _ _ ret :: cs => ret :: add_reader_results cs
  | HtsCall.set_regions _ _ _ _ :: cs => add_reader_results cs

/-- The arguments `(regions, is_file)` of the `bcf_sr_set_regions` calls, in call order. -/
def region_calls : List (HtsCall σ) → List (String × Int)
  | [] => []
  | HtsCall.add_reader _ _ _ :: cs => region_calls cs
  | HtsCall.set_regions _ r f _ :: cs => (r, f) :: region_calls cs

/-- A library instance used to run the constructor on concrete inputs: `bcf_sr_init` returns a
reader with `require_index = 0`, `bcf_sr_set_regions` reports 0 and `bcf_sr_add_reader`
reports 1, both leaving the reader as they found it. -/
def accepting_lib : Htslib Unit where
  bcf_sr_init := ⟨0, ()⟩
  bcf_sr_set_regions := fun readers _ _ => (readers, 0)
  bcf_sr_add_reader := fun readers _ => (readers, 1)

end SyncedVariantReader

/-! ## Synchronized traversal (`SyncedVariantReader::begin()` to `end()`)

`begin()` and `end()` only construct the `ITERATOR`; the traversal itself is carried out by the
iterator class and the htslib synced reader it drives, neither of which is among the sources.
It is embedded from section 4.4 of the specification. -/

namespace SynchronizedMultiReader

/-- Modelled from the spec: a genomic coordinate of section 3, `(contig id, position)`; the
contig id is the contig's rank in the declaration order of the first source's header. -/
structure Coordinate where
  contig : Nat
  position : Nat
deriving DecidableEq, Repr

/-- Modelled from the spec: the order of section 4.4, "lexicographically smallest (contig-order,
then position)". -/
def Coordinate.lt (a b : Coordinate) : Bool :=
  decide (a.contig < b.contig) || (decide (a.contig = b.contig) && decide (a.position < b.position))

/-- Modelled from the spec: a `VariantRecord` of section 3, reduced to its coordinate and an
identifier `payload` standing for the rest of its content. -/
structure VariantRecord where
  contig : Nat
  position : Nat
  payload : Nat
deriving DecidableEq, Repr

/-- The coordinate of a record. -/
def VariantRecord.coordinate (r : VariantRecord) : Coordinate := ⟨r.contig, r.position⟩

/-- Modelled from the spec: a `RecordSource` of section 4.3 in state Positioned/AtRecord, given by
the records it has yet to return, in file order; `[]` is the state Exhausted. -/
abbrev RecordSource := List VariantRecord

/-- Modelled from the spec: `current_coordinate()` of section 4.3, "peeks without advancing". -/
def current_coordinate : RecordSource → Option Coordinate
  | [] => none
  | r :: _ => some r.coordinate

/-- Modelled from the spec: step 2 of section 4.4, "the lexicographically smallest coordinate among
all non-exhausted sources' pre-fetched heads"; `none` when all sources are exhausted. -/
def min_coord : List RecordSource → Option Coordinate
  | [] => none
  | s :: rest =>
    match current_coordinate s, min_coord rest with
    | none, m => m
    | some c, none => some c
    | some c, some m => if m.lt c then some m else some c

/-- Modelled from the spec: step 3 of section 4.4 for one source: if its pre-fetched coordinate
equals `min_coord` it is consumed (`next()`) and its record fills the slot; otherwise the slot
is "missing" and the source is not advanced. -/
def consume (m : Coordinate) : RecordSource → Option VariantRecord × RecordSource
  | [] => (none, [])
  | r :: rest => if r.coordinate = m then (some r, rest) else (none, r :: rest)

/-- Modelled from the spec: the `SynchronizedRow` of section 3: the row's coordinate and, for each
source, a record ("present") or `none` ("missing"). -/
structure SynchronizedRow where
  coordinate : Coordinate
  slots : List (Option VariantRecord)
deriving DecidableEq, Repr

/-- Modelled from the spec: one pull of section 4.4 (steps 2 to 4): the row emitted and the sources
as they are left, or `none` in the terminal state. -/
def step (sources : List RecordSource) : Option (SynchronizedRow × List RecordSource) :=
  match min_coord sources with
  | none => none
  | some m =>
    some (⟨m, sources.map (fun s => (consume m s).1)⟩, sources.map (fun s => (consume m s).2))

/-- Modelled from the spec: the rows emitted by at most `fuel` pulls. -/
def rows : Nat → List RecordSource → List SynchronizedRow
  | 0, _ => []
  | fuel + 1, sources =>
    match step sources with
    | none => []
    | some (row, next) => row :: rows fuel next

/-- The number of records the sources have yet to return. -/
def pending (sources : List RecordSource) : Nat := (sources.map List.length).sum

/-- Modelled from the spec: the whole traversal, from `begin()` to `end()`: every pull consumes
at least one record, so `pending sources` pulls reach the terminal state. -/
def synchronized_rows (sources : List RecordSource) : List SynchronizedRow :=
  rows (pending sources) sources

/-- The slot of source `i` in a row is "present". -/
def SynchronizedRow.present (row : SynchronizedRow) (i : Nat) : Bool :=
  match row.slots[i]? with
  | some (some _) => true
  | _ => false

/-- Source `i` contains a record at coordinate `c`. -/
def has_record_at (sources : List RecordSource) (i : Nat) (c : Coordinate) : Prop :=
  ∃ r ∈ sources.getD i [], r.coordinate = c

/-- A coordinate-sorted source in the sense of section 4.3: coordinates "in non-decreasing order". -/
def CoordinateSorted (s : RecordSource) : Prop :=
  s.Pairwise (fun a b => b.coordinate.lt a.coordinate = false)

/-- A source whose coordinates strictly increase: coordinate-sorted, with at most one record
per coordinate. -/
def StrictlySorted (s : RecordSource) : Prop :=
  s.Pairwise (fun a b => a.coordinate.lt b.coordinate = true)

instance (sources : List RecordSource) (i : Nat) (c : Coordinate) :
    Decidable (has_record_at sources i c) := by
  unfold has_record_at
  infer_instance

instance (s : RecordSource) : Decidable (CoordinateSorted s) := by
  unfold CoordinateSorted
  infer_instance

instance (s : RecordSource) : Decidable (StrictlySorted s) := by
  unfold StrictlySorted
  infer_instance

/-- The three sources of the scenario of section 8 (`chr1` is contig 0). -/
def scenario : List RecordSource :=
  [[⟨0, 100, 1⟩, ⟨0, 200, 2⟩], [⟨0, 100, 3⟩], [⟨0, 150, 4⟩, ⟨0, 200, 5⟩]]

/-- Two coordinate-sorted sources, the first with two records at the same coordinate. -/
def repeated_coordinate : List RecordSource :=
  [[⟨0, 100, 1⟩, ⟨0, 100, 2⟩], [⟨0, 100, 3⟩]]

end SynchronizedMultiReader

/-! ## `SamHeader::read_groups` (sam_header.cpp:57-69) -/

namespace SamHeader

/-- `std::string::npos`, the largest `size_t`. -/
def npos : Nat := 2 ^ 64 - 1

/-- The literal `RG_TAG`. -/
def RG_TAG : List Char := "@RG".toList

/-- Search for `pat` in `text`, the part of the string that starts at index `i`: the index of
the first occurrence, `npos` when there is none. -/
def find_from (pat : List Char) : List Char → Nat → Nat
  | [], i => if pat.isPrefixOf [] then i else npos
  | c :: cs, i => if pat.isPrefixOf (c :: cs) then i else find_from pat cs (i + 1)

/-- The call `text.find(pat, pos)` of `std::string`: the lowest index `>= pos` at which `pat`
occurs in `text`, or `npos`. -/
def find (text pat : List Char) (pos : Nat) : Nat :=
  if text.length < pos then npos else find_from pat (text.drop pos) pos

/-- The call `text.substr(pos, count)` of `std::string`, for `pos <= text.size()`: the
characters `[pos, min(pos + count, size))`. -/
def substr (text : List Char) (pos count : Nat) : List Char :=
  (text.drop pos).take count

/-- The argument handed to the `ReadGroup` constructor (the class itself is not among the
sources): a read group is identified by the header line it is constructed from. -/
structure ReadGroup where
  header_line : String
deriving DecidableEq, Repr

/-- The `for` loop of `read_groups` (lines 63-67), entered with the current `rg_start` and
`result`; `size_t` arithmetic is modulo `2 ^ 64`.  Returns `none` when `fuel` iterations do
not reach the exit `rg_start == NOT_FOUND`. -/
def read_groups_loop (text : List Char) : Nat → Nat → List ReadGroup → Option (List ReadGroup)
  | 0, _, _ => none
  | fuel + 1, rg_start, result =>
    if rg_start = npos then some result
    else
      let rg_end := find text [Char.ofNat 10] ((rg_start + 1) % 2 ^ 64)
      let rg_record := substr text rg_start ((rg_end + 2 ^ 64 - rg_start) % 2 ^ 64)
      read_groups_loop text fuel (find text RG_TAG ((rg_end + 1) % 2 ^ 64))
        (result ++ [ReadGroup.mk (String.mk rg_record)])

/-- `SamHeader::read_groups` on the header text `text` (the value of `header_text()`). -/
def read_groups (fuel : Nat) (text : String) : Option (List ReadGroup) :=
  read_groups_loop text.toList fuel (find text.toList RG_TAG 0) []

/-! ## `SamHeader::sequence_length` (sam_header.cpp:44-52) -/

/-- The terminating character of a C string. -/
def NUL : Char := Char.ofNat 0

/-- The C string a `char*` designates in the bytes `s`: the characters before the first `NUL`
(all of `s` when it has none: the terminator then follows the last character). -/
def c_str (s : List Char) : List Char := s.takeWhile (fun c => c ≠ NUL)

/-- The libc function `strcmp` on the bytes two `char*` point to, the end of a list standing
for the terminating `NUL`: the difference of the first two characters that differ, 0 when both
strings end without one.  The source only tests the result against 0. -/
def strcmp : List Char → List Char → Int
  | [], [] => 0
  | [], b :: _ => 0 - (b.toNat : Int)
  | a :: _, [] => (a.toNat : Int) - 0
  | a :: as, b :: bs =>
    if a ≠ b then (a.toNat : Int) - (b.toNat : Int)
    else if a = NUL then 0
    else strcmp as bs

/-- The part of htslib's `bam_hdr_t` that `sequence_length` reads: `int32_t n_targets`,
`char **target_name` and `uint32_t *target_len`. -/
structure bam_hdr_t where
  n_targets : Int
  target_name : List String
  target_len : List Nat
deriving DecidableEq, Repr

/-- A header whose two arrays have `n_targets` entries each, as htslib builds it. -/
def bam_hdr_t.WellFormed (h : bam_hdr_t) : Prop :=
  h.target_name.length = h.n_targets.toNat ∧ h.target_len.length = h.n_targets.toNat

instance (h : bam_hdr_t) : Decidable h.WellFormed := by
  unfold bam_hdr_t.WellFormed
  infer_instance

/-- The `for` loop of `sequence_length` (lines 46-51), entered with the current `i`.  `none`
stands for a read outside one of the two arrays (or for `fuel` running out). -/
def sequence_length_loop (m_header : bam_hdr_t) (c : List Char) : Nat → Nat → Option Nat
  | 0, _ => none
  | fuel + 1, i =>
    if (i : Int) < m_header.n_targets then
      match m_header.target_name[i]? with
      | none => none
      | some name =>
        if strcmp c name.toList = 0 then m_header.target_len[i]?
        else sequence_length_loop m_header c fuel (i + 1)
    else some 0

/-- `SamHeader::sequence_length`: the loop runs its test at most `n_targets + 1` times. -/
def sequence_length (m_header : bam_hdr_t) (sequence_name : String) : Option Nat :=
  sequence_length_loop m_header sequence_name.toList (m_header.n_targets.toNat + 1) 0

end SamHeader

/-! # Properties -/

namespace VariantFieldIterator

theorem check_boundaries_ok (index size : Nat) (h : index < size) :
    utils.check_boundaries index size = .ok () := by
  unfold utils.check_boundaries
  rw [if_neg (by omega)]

theorem check_boundaries_error (index size : Nat) (h : size ≤ index) :
    utils.check_boundaries index size = .error .out_of_range := by
  unfold utils.check_boundaries
  rw [if_pos h]

theorem operator_index_of_lt (it : VariantFieldIterator) (i : Nat) (h : i < it.m_body.n_sample) :
    operator_index it i = .ok ⟨it.m_body, it.m_format_ptr,
      it.m_data_ptr + (((i * it.m_body.n_sample) % 2 ^ 32 : Nat) : Int)⟩ := by
  unfold operator_index
  rw [check_boundaries_ok _ _ h]

theorem operator_index_uint8_of_lt (mem : Memory) (it : VariantFieldIterator) (i : Nat)
    (h : i < it.m_body.n_sample) :
    operator_index_uint8 mem it i = .ok (mem (it.m_data_ptr + (i : Int))) := by
  unfold operator_index_uint8
  rw [check_boundaries_ok _ _ h]

theorem operator_index_of_ge (it : VariantFieldIterator) (i : Nat) (h : it.m_body.n_sample ≤ i) :
    operator_index it i = .error .out_of_range := by
  unfold operator_index
  rw [check_boundaries_error _ _ h]

theorem operator_index_uint8_of_ge (mem : Memory) (it : VariantFieldIterator) (i : Nat)
    (h : it.m_body.n_sample ≤ i) :
    operator_index_uint8 mem it i = .error .out_of_range := by
  unfold operator_index_uint8
  rw [check_boundaries_error _ _ h]

/-- C1 (evaluation of the code): for a field of stride 4 in a record with 3 samples, the generic
`operator[]` on the begin iterator designates byte offset 3 for index 1 and byte offset 6 for
index 2 (the index is scaled by the sample count, not by the stride), where stride-based access
designates offsets 4 and 8. -/
theorem operator_index_scales_by_sample_count :
    operator_index (new ⟨0, 3⟩ ⟨4, 1000⟩ false) 1 = .ok ⟨⟨0, 3⟩, ⟨4, 1000⟩, 1000 + 3⟩ ∧
    operator_index (new ⟨0, 3⟩ ⟨4, 1000⟩ false) 2 = .ok ⟨⟨0, 3⟩, ⟨4, 1000⟩, 1000 + 6⟩ ∧
    operator_index (new ⟨0, 3⟩ ⟨4, 1000⟩ false) 1 ≠ .ok ⟨⟨0, 3⟩, ⟨4, 1000⟩, 1000 + 1 * 4⟩ ∧
    operator_index (new ⟨0, 3⟩ ⟨4, 1000⟩ false) 2 ≠ .ok ⟨⟨0, 3⟩, ⟨4, 1000⟩, 1000 + 2 * 4⟩ := by
  have h1 : operator_index (new ⟨0, 3⟩ ⟨4, 1000⟩ false) 1
      = .ok ⟨⟨0, 3⟩, ⟨4, 1000⟩, 1000 + 3⟩ := rfl
  have h2 : operator_index (new ⟨0, 3⟩ ⟨4, 1000⟩ false) 2
      = .ok ⟨⟨0, 3⟩, ⟨4, 1000⟩, 1000 + 6⟩ := rfl
  refine ⟨h1, h2, ?_, ?_⟩
  · rw [h1]
    intro h
    injection h with h
    revert h
    decide
  · rw [h2]
    intro h
    injection h with h
    revert h
    decide

/-- C2: for the generic iterator and for the `uint8_t` specialisation, whatever the record, the
field descriptor (type, stride) and the cursor position, `operator[](i)` throws `out_of_range`
exactly when `i >= n_sample` and returns a value exactly when `i < n_sample`. -/
theorem operator_index_bounds_check (mem : Memory) (it : VariantFieldIterator) (i : Nat) :
    (operator_index it i = .error .out_of_range ↔ it.m_body.n_sample ≤ i) ∧
    ((∃ v, operator_index it i = .ok v) ↔ i < it.m_body.n_sample) ∧
    (operator_index_uint8 mem it i = .error .out_of_range ↔ it.m_body.n_sample ≤ i) ∧
    ((∃ b, operator_index_uint8 mem it i = .ok b) ↔ i < it.m_body.n_sample) := by
  rcases Nat.lt_or_ge i it.m_body.n_sample with h | h
  · rw [operator_index_of_lt it i h, operator_index_uint8_of_lt mem it i h]
    refine ⟨?_, ?_, ?_, ?_⟩
    · constructor
      · intro e
        cases e
      · intro g
        omega
    · constructor
      · intro _
        exact h
      · intro _
        exact ⟨_, rfl⟩
    · constructor
      · intro e
        cases e
      · intro g
        omega
    · constructor
      · intro _
        exact h
      · intro _
        exact ⟨_, rfl⟩
  · rw [operator_index_of_ge it i h, operator_index_uint8_of_ge mem it i h]
    refine ⟨?_, ?_, ?_, ?_⟩
    · constructor
      · intro _
        exact h
      · intro _
        rfl
    · constructor
      · rintro ⟨v, e⟩
        cases e
      · intro g
        omega
    · constructor
      · intro _
        exact h
      · intro _
        rfl
    · constructor
      · rintro ⟨v, e⟩
        cases e
      · intro g
        omega

theorem increments_fields (k : Nat) (it : VariantFieldIterator) :
    (increments k it).m_body = it.m_body ∧ (increments k it).m_format_ptr = it.m_format_ptr ∧
    (increments k it).m_data_ptr = it.m_data_ptr + (k : Int) * it.m_format_ptr.size := by
  induction k generalizing it with
  | zero => simp [increments]
  | succ k ih =>
    obtain ⟨h1, h2, h3⟩ := ih (operator_inc it).1
    refine ⟨?_, ?_, ?_⟩
    · rw [increments, h1]
      rfl
    · rw [increments, h2]
      rfl
    · rw [increments, h3]
      simp only [operator_inc]
      push_cast
      ring

theorem operator_eq_iff (a b : VariantFieldIterator) :
    operator_eq a b = true ↔ a.m_body.addr = b.m_body.addr ∧ a.m_data_ptr = b.m_data_ptr := by
  simp [operator_eq, shared_ptr_eq]

theorem operator_ne_iff (a b : VariantFieldIterator) :
    operator_ne a b = true ↔ ¬ (a.m_body.addr = b.m_body.addr ∧ a.m_data_ptr = b.m_data_ptr) := by
  simp only [operator_ne, shared_ptr_eq, Bool.or_eq_true, Bool.not_eq_true', beq_eq_false_iff_ne,
    decide_eq_true_eq, ne_eq]
  tauto

theorem traverse_stride (n : Nat) :
    ∀ (fuel : Nat) (it last : VariantFieldIterator), n < fuel → 0 < it.m_format_ptr.size →
      it.m_body.addr = last.m_body.addr →
      last.m_data_ptr = it.m_data_ptr + (n : Int) * it.m_format_ptr.size →
      traverse fuel it last =
        some ((List.range n).map (fun j : Nat => it.m_data_ptr + (j : Int) * it.m_format_ptr.size)) := by
  induction n with
  | zero =>
    intro fuel it last hf _ hb hp
    obtain ⟨f, rfl⟩ : ∃ f, fuel = f + 1 := ⟨fuel - 1, by omega⟩
    have hne : operator_ne it last = false := by
      rw [Bool.eq_false_iff, Ne, operator_ne_iff]
      simp [hb, hp]
    simp [traverse, hne]
  | succ n ih =>
    intro fuel it last hf hW hb hp
    obtain ⟨f, rfl⟩ : ∃ f, fuel = f + 1 := ⟨fuel - 1, by omega⟩
    have hne : operator_ne it last = true := by
      rw [operator_ne_iff]
      rintro ⟨_, h⟩
      rw [hp] at h
      push_cast at h
      nlinarith
    have hrec := ih f (operator_inc it).1 last (by omega) hW hb (by
      rw [hp]
      simp only [operator_inc]
      push_cast
      ring)
    rw [traverse, if_pos hne, hrec, List.range_succ_eq_map]
    simp only [operator_inc, operator_deref, Option.map_some', List.map_cons, List.map_map,
      Nat.cast_zero, zero_mul, add_zero, Option.some.injEq, List.cons.injEq, true_and]
    apply List.map_congr_left
    intro j _
    simp only [Function.comp_apply, Nat.cast_succ]
    ring

/-- C3: for a record with `S = n_sample` samples and a field of stride `W = size > 0`, the
iterator reached from begin by `k` applications of the generic `operator++` sits at byte offset
`k * W` (for every `k`), differs from the end iterator for every `k < S` and equals it for
`k = S`; the begin/end loop terminates (any fuel above `S` suffices) having visited exactly the
`S` positions `p + 0 * W, ..., p + (S - 1) * W`, in this order. -/
theorem sequential_iteration (body : bcf1_t) (fmt : bcf_fmt_t) (hW : 0 < fmt.size) :
    (∀ k : Nat, offset (increments k (new body fmt false)) = (k : Int) * fmt.size) ∧
    (∀ k : Nat, k < body.n_sample →
      operator_ne (increments k (new body fmt false)) (new body fmt true) = true ∧
      operator_eq (increments k (new body fmt false)) (new body fmt true) = false) ∧
    (operator_eq (increments body.n_sample (new body fmt false)) (new body fmt true) = true ∧
      operator_ne (increments body.n_sample (new body fmt false)) (new body fmt true) = false) ∧
    (∀ fuel : Nat, body.n_sample < fuel →
      traverse fuel (new body fmt false) (new body fmt true) =
        some ((List.range body.n_sample).map (fun k : Nat => fmt.p + (k : Int) * fmt.size))) := by
  have hfields := fun k => increments_fields k (new body fmt false)
  refine ⟨?_, ?_, ?_, ?_⟩
  · intro k
    obtain ⟨_, h2, h3⟩ := hfields k
    rw [offset, h3, h2]
    simp [new]
  · intro k hk
    obtain ⟨h1, _, h3⟩ := hfields k
    have hlt : ((k : Int) * fmt.size) < fmt.size * (body.n_sample : Int) := by
      have : (k : Int) < (body.n_sample : Int) := by exact_mod_cast hk
      nlinarith
    have hne : ¬ ((increments k (new body fmt false)).m_body.addr = (new body fmt true).m_body.addr ∧
        (increments k (new body fmt false)).m_data_ptr = (new body fmt true).m_data_ptr) := by
      rintro ⟨_, h⟩
      rw [h3] at h
      simp only [new, if_true, Bool.false_eq_true, if_false] at h
      omega
    refine ⟨(operator_ne_iff _ _).2 hne, ?_⟩
    rw [Bool.eq_false_iff, Ne, operator_eq_iff]
    exact hne
  · obtain ⟨h1, _, h3⟩ := hfields body.n_sample
    have heq : (increments body.n_sample (new body fmt false)).m_body.addr
          = (new body fmt true).m_body.addr ∧
        (increments body.n_sample (new body fmt false)).m_data_ptr
          = (new body fmt true).m_data_ptr := by
      refine ⟨by rw [h1]; rfl, ?_⟩
      rw [h3]
      simp only [new, if_true, Bool.false_eq_true, if_false]
      ring
    refine ⟨(operator_eq_iff _ _).2 heq, ?_⟩
    rw [Bool.eq_false_iff, Ne, operator_ne_iff]
    exact fun h => h heq
  · intro fuel hf
    have h := traverse_stride body.n_sample fuel (new body fmt false) (new body fmt true) hf hW rfl
      (by simp only [new, if_true, Bool.false_eq_true, if_false]; ring)
    rw [h]
    rfl

/-- C3 at a concrete input: stride 4, 3 samples, data at address 1000. -/
theorem sequential_iteration_witness :
    (0 : Int) < (⟨4, 1000⟩ : bcf_fmt_t).size ∧
    traverse 4 (new ⟨0, 3⟩ ⟨4, 1000⟩ false) (new ⟨0, 3⟩ ⟨4, 1000⟩ true)
      = some [1000, 1004, 1008] :=
  ⟨by decide, ((sequential_iteration ⟨0, 3⟩ ⟨4, 1000⟩ (by decide)).2.2.2 4 (by decide)).trans
    (by decide)⟩

theorem operator_inc_uint8_of_size_one (mem : Memory) (it : VariantFieldIterator)
    (h : it.m_format_ptr.size = 1) : (operator_inc_uint8 mem it).1 = (operator_inc it).1 := by
  simp [operator_inc_uint8, operator_inc, h]

theorem operator_dec_uint8_of_size_one (mem : Memory) (it : VariantFieldIterator)
    (h : it.m_format_ptr.size = 1) : (operator_dec_uint8 mem it).1 = (operator_dec it).1 := by
  simp [operator_dec_uint8, operator_dec, h]

theorem increments_uint8_of_size_one (mem : Memory) (k : Nat) :
    ∀ it : VariantFieldIterator, it.m_format_ptr.size = 1 →
      increments_uint8 mem k it = increments k it := by
  induction k with
  | zero =>
    intro it _
    rfl
  | succ k ih =>
    intro it h
    rw [increments_uint8, increments, operator_inc_uint8_of_size_one mem it h]
    exact ih _ h

theorem traverse_uint8_of_size_one (mem : Memory) (fuel : Nat) :
    ∀ it last : VariantFieldIterator, it.m_format_ptr.size = 1 →
      traverse_uint8 mem fuel it last = traverse fuel it last := by
  induction fuel with
  | zero =>
    intro it last _
    rfl
  | succ f ih =>
    intro it last h
    have h1 : (operator_inc it).1.m_format_ptr.size = 1 := h
    rw [traverse_uint8, traverse, operator_inc_uint8_of_size_one mem it h, ih _ last h1]
    rfl

/-- C4 (as stated, refuted): for a field of stride 2 in a record with 2 samples, the specialised
`operator++` and `operator--` move the cursor by 1 byte where the generic ones move it by 2, and
the begin-to-end loop with the specialisation visits 4 positions, not `n_sample = 2`. -/
theorem uint8_specialisation_differs_at_stride_two :
    (operator_inc_uint8 (fun _ => 0) (new ⟨0, 2⟩ ⟨2, 1000⟩ false)).1.m_data_ptr = 1001 ∧
    (operator_inc (new ⟨0, 2⟩ ⟨2, 1000⟩ false)).1.m_data_ptr = 1002 ∧
    (operator_dec_uint8 (fun _ => 0) (new ⟨0, 2⟩ ⟨2, 1000⟩ true)).1.m_data_ptr = 1003 ∧
    (operator_dec (new ⟨0, 2⟩ ⟨2, 1000⟩ true)).1.m_data_ptr = 1002 ∧
    traverse_uint8 (fun _ => 0) 5 (new ⟨0, 2⟩ ⟨2, 1000⟩ false) (new ⟨0, 2⟩ ⟨2, 1000⟩ true)
      = some [1000, 1001, 1002, 1003] ∧
    ¬ (∀ (mem : Memory) (it : VariantFieldIterator),
        (operator_inc_uint8 mem it).1 = (operator_inc it).1) := by
  refine ⟨by decide, by decide, by decide, by decide, by decide, ?_⟩
  intro h
  have h2 := congrArg VariantFieldIterator.m_data_ptr
    (h (fun _ => 0) (new ⟨0, 2⟩ ⟨2, 1000⟩ false))
  revert h2
  decide

/-- C4 (amended): the specialised `operator++` / `operator--` always move the cursor by one
byte and return the byte at the new cursor; for a field of stride `size = 1` this is the move
the generic operators make (one sample), so `k` increments from begin reach the same position
in both versions, and the begin-to-end loop with the specialisation terminates having visited
exactly `n_sample` positions, the same ones as the generic loop. -/
theorem uint8_specialisation_agrees_at_stride_one (mem : Memory) (body : bcf1_t)
    (fmt : bcf_fmt_t) (hW : fmt.size = 1) :
    (∀ it : VariantFieldIterator,
      (operator_inc_uint8 mem it).1.m_data_ptr = it.m_data_ptr + 1 ∧
      (operator_dec_uint8 mem it).1.m_data_ptr = it.m_data_ptr - 1 ∧
      (operator_inc_uint8 mem it).2 = mem (operator_inc_uint8 mem it).1.m_data_ptr ∧
      (operator_dec_uint8 mem it).2 = mem (operator_dec_uint8 mem it).1.m_data_ptr) ∧
    (∀ it : VariantFieldIterator, it.m_format_ptr = fmt →
      (operator_inc_uint8 mem it).1 = (operator_inc it).1 ∧
      (operator_dec_uint8 mem it).1 = (operator_dec it).1 ∧
      (operator_inc_uint8 mem it).2 = mem (operator_inc it).2.m_data_ptr ∧
      (operator_dec_uint8 mem it).2 = mem (operator_dec it).2.m_data_ptr) ∧
    (∀ k : Nat, increments_uint8 mem k (new body fmt false) = increments k (new body fmt false)) ∧
    (∀ fuel : Nat, body.n_sample < fuel →
      traverse_uint8 mem fuel (new body fmt false) (new body fmt true)
        = traverse fuel (new body fmt false) (new body fmt true) ∧
      ∃ visited : List Int,
        traverse_uint8 mem fuel (new body fmt false) (new body fmt true) = some visited ∧
        visited.length = body.n_sample) := by
  refine ⟨?_, ?_, ?_, ?_⟩
  · intro it
    exact ⟨rfl, rfl, rfl, rfl⟩
  · intro it hit
    have h1 : it.m_format_ptr.size = 1 := by rw [hit, hW]
    refine ⟨operator_inc_uint8_of_size_one mem it h1, operator_dec_uint8_of_size_one mem it h1,
      ?_, ?_⟩
    · simp [operator_inc_uint8, operator_inc, h1]
    · simp [operator_dec_uint8, operator_dec, h1]
  · intro k
    exact increments_uint8_of_size_one mem k _ hW
  · intro fuel hf
    have e := traverse_uint8_of_size_one mem fuel (new body fmt false) (new body fmt true) hW
    have hend : (new body fmt true).m_data_ptr
        = (new body fmt false).m_data_ptr + (body.n_sample : Int) * fmt.size := by
      simp only [new, if_true, Bool.false_eq_true, if_false]
      ring
    have hW0 : 0 < (new body fmt false).m_format_ptr.size := by
      show 0 < fmt.size
      rw [hW]
      decide
    refine ⟨e, _, e.trans (traverse_stride body.n_sample fuel (new body fmt false)
      (new body fmt true) hf hW0 rfl hend), ?_⟩
    simp

/-- C4 (amended) at a concrete input: stride 1, 3 samples, data at address 1000. -/
theorem uint8_specialisation_agrees_at_stride_one_witness :
    (⟨1, 1000⟩ : bcf_fmt_t).size = 1 ∧
    ∃ visited : List Int,
      traverse_uint8 (fun _ => 0) 4 (new ⟨0, 3⟩ ⟨1, 1000⟩ false) (new ⟨0, 3⟩ ⟨1, 1000⟩ true)
        = some visited ∧ visited.length = 3 :=
  ⟨rfl, ((uint8_specialisation_agrees_at_stride_one (fun _ => 0) ⟨0, 3⟩ ⟨1, 1000⟩ rfl).2.2.2 4
    (by decide)).2⟩

/-- C5 (evaluation of the code): accepted indices that designate a location outside the field's
`W * S` bytes.  Generic iterator, stride 2, 4 samples (8 bytes at 1000), cursor at begin: index
3 passes the bounds check and designates offset 12.  Generic iterator, stride 4, 3 samples (12
bytes), cursor after two increments: index 2 designates offset 14.  Specialisation, stride 1,
2 samples (2 bytes), cursor after one increment: index 1 reads the byte at offset 2. -/
theorem operator_index_leaves_buffer :
    (operator_index (new ⟨0, 4⟩ ⟨2, 1000⟩ false) 3 = .ok ⟨⟨0, 4⟩, ⟨2, 1000⟩, 1000 + 12⟩ ∧
      ¬ ((12 : Int) < 2 * 4)) ∧
    (operator_index (increments 2 (new ⟨0, 3⟩ ⟨4, 1000⟩ false)) 2
        = .ok ⟨⟨0, 3⟩, ⟨4, 1000⟩, 1000 + 14⟩ ∧
      operator_ne (increments 2 (new ⟨0, 3⟩ ⟨4, 1000⟩ false)) (new ⟨0, 3⟩ ⟨4, 1000⟩ true) = true ∧
      ¬ ((14 : Int) < 4 * 3)) ∧
    ((∀ mem : Memory,
        operator_index_uint8 mem (increments_uint8 mem 1 (new ⟨0, 2⟩ ⟨1, 1000⟩ false)) 1
          = .ok (mem (1000 + 2))) ∧
      (∀ mem : Memory,
        operator_ne (increments_uint8 mem 1 (new ⟨0, 2⟩ ⟨1, 1000⟩ false))
          (new ⟨0, 2⟩ ⟨1, 1000⟩ true) = true) ∧
      ¬ ((2 : Int) < 1 * 2)) := by
  refine ⟨⟨rfl, by decide⟩, ⟨rfl, by decide, by decide⟩, ⟨fun _ => rfl, fun _ => rfl,
    by decide⟩⟩

theorem decrements_fields (k : Nat) (it : VariantFieldIterator) :
    (decrements k it).m_body = it.m_body ∧ (decrements k it).m_format_ptr = it.m_format_ptr ∧
    (decrements k it).m_data_ptr = it.m_data_ptr - (k : Int) * it.m_format_ptr.size := by
  induction k generalizing it with
  | zero => simp [decrements]
  | succ k ih =>
    obtain ⟨h1, h2, h3⟩ := ih (operator_dec it).1
    refine ⟨?_, ?_, ?_⟩
    · rw [decrements, h1]
      rfl
    · rw [decrements, h2]
      rfl
    · rw [decrements, h3]
      simp only [operator_dec]
      push_cast
      ring

theorem eq_of_fields {a b : VariantFieldIterator} (h1 : a.m_body = b.m_body)
    (h2 : a.m_format_ptr = b.m_format_ptr) (h3 : a.m_data_ptr = b.m_data_ptr) : a = b := by
  cases a
  cases b
  simp only at h1 h2 h3
  rw [h1, h2, h3]

/-- C12: for two iterators over the same record and the same field of stride `W = size > 0`,
sitting at sample positions `i` and `j` (byte offsets `i * W` and `j * W`): `a == b` iff
`i = j`, `a != b` iff not `a == b`, `a < b` iff `i < j`, `a > b` iff `i > j`, `a <= b` iff
`i <= j`, `a >= b` iff `i >= j`; and exactly one of `a < b`, `a == b`, `a > b` holds. -/
theorem comparisons_agree_with_sample_order (a b : VariantFieldIterator) (fmt : bcf_fmt_t)
    (i j : Int) (hW : 0 < fmt.size) (hbody : a.m_body.addr = b.m_body.addr)
    (hfa : a.m_format_ptr = fmt) (hfb : b.m_format_ptr = fmt)
    (ha : offset a = i * fmt.size) (hb : offset b = j * fmt.size) :
    (operator_eq a b = true ↔ i = j) ∧
    (operator_ne a b = true ↔ ¬ operator_eq a b = true) ∧
    (operator_lt a b = true ↔ i < j) ∧
    (operator_gt a b = true ↔ i > j) ∧
    (operator_le a b = true ↔ i ≤ j) ∧
    (operator_ge a b = true ↔ i ≥ j) ∧
    ((operator_lt a b = true ∧ operator_eq a b = false ∧ operator_gt a b = false) ∨
     (operator_lt a b = false ∧ operator_eq a b = true ∧ operator_gt a b = false) ∨
     (operator_lt a b = false ∧ operator_eq a b = false ∧ operator_gt a b = true)) := by
  have hpa : a.m_data_ptr = fmt.p + i * fmt.size := by
    rw [offset, hfa] at ha
    omega
  have hpb : b.m_data_ptr = fmt.p + j * fmt.size := by
    rw [offset, hfb] at hb
    omega
  have hsame : shared_ptr_eq a.m_body b.m_body = true := by
    simp [shared_ptr_eq, hbody]
  have hlt : a.m_data_ptr < b.m_data_ptr ↔ i < j := by
    rw [hpa, hpb, add_lt_add_iff_left, mul_lt_mul_right hW]
  have hle : a.m_data_ptr ≤ b.m_data_ptr ↔ i ≤ j := by
    rw [hpa, hpb, add_le_add_iff_left, mul_le_mul_right hW]
  have hgt : a.m_data_ptr > b.m_data_ptr ↔ i > j := by
    rw [hpa, hpb, gt_iff_lt, add_lt_add_iff_left, mul_lt_mul_right hW]
  have hge : a.m_data_ptr ≥ b.m_data_ptr ↔ i ≥ j := by
    rw [hpa, hpb, ge_iff_le, add_le_add_iff_left, mul_le_mul_right hW]
  have heq : a.m_data_ptr = b.m_data_ptr ↔ i = j := by
    constructor
    · intro h
      exact le_antisymm (hle.1 (le_of_eq h)) (hge.1 (le_of_eq h.symm))
    · intro h
      rw [hpa, hpb, h]
  have e1 : operator_eq a b = true ↔ i = j := by
    simp [operator_eq, hsame, heq]
  have e2 : operator_ne a b = true ↔ ¬ operator_eq a b = true := by
    simp [operator_ne, operator_eq, hsame]
  have e3 : operator_lt a b = true ↔ i < j := by
    simp [operator_lt, hsame, hlt]
  have e4 : operator_gt a b = true ↔ i > j := by
    simp only [operator_gt, hsame, Bool.true_and, decide_eq_true_eq]
    exact hgt
  have e5 : operator_le a b = true ↔ i ≤ j := by
    simp [operator_le, hsame, hle]
  have e6 : operator_ge a b = true ↔ i ≥ j := by
    simp only [operator_ge, hsame, Bool.true_and, decide_eq_true_eq]
    exact hge
  refine ⟨e1, e2, e3, e4, e5, e6, ?_⟩
  have f1 : operator_lt a b = false ↔ ¬ i < j := by
    rw [← e3]
    simp
  have f2 : operator_eq a b = false ↔ ¬ i = j := by
    rw [← e1]
    simp
  have f3 : operator_gt a b = false ↔ ¬ i > j := by
    rw [← e4]
    simp
  rw [e1, e3, e4, f1, f2, f3]
  omega

/-- C12 at a concrete input: stride 4, 3 samples, iterators after one and two increments. -/
theorem comparisons_agree_with_sample_order_witness :
    operator_lt (increments 1 (new ⟨0, 3⟩ ⟨4, 1000⟩ false))
        (increments 2 (new ⟨0, 3⟩ ⟨4, 1000⟩ false)) = true ∧
    operator_eq (increments 1 (new ⟨0, 3⟩ ⟨4, 1000⟩ false))
        (increments 2 (new ⟨0, 3⟩ ⟨4, 1000⟩ false)) = false ∧
    operator_gt (increments 1 (new ⟨0, 3⟩ ⟨4, 1000⟩ false))
        (increments 2 (new ⟨0, 3⟩ ⟨4, 1000⟩ false)) = false := by
  have h := comparisons_agree_with_sample_order (increments 1 (new ⟨0, 3⟩ ⟨4, 1000⟩ false))
    (increments 2 (new ⟨0, 3⟩ ⟨4, 1000⟩ false)) ⟨4, 1000⟩ 1 2 (by decide) rfl rfl rfl
    (by decide) (by decide)
  rcases h.2.2.2.2.2.2 with h1 | h1 | h1
  · exact h1
  · exact absurd (h.1.1 h1.2.1) (by decide)
  · exact absurd (h.2.2.2.1.1 h1.2.2) (by decide)

/-- C13: `operator+=(n)` moves the cursor by `n * size` bytes and leaves the record and the
field untouched; for `n >= 0` the result is the state after `n` applications of `operator++`,
for `n < 0` the state after `|n|` applications of `operator--`; `operator-=(n)` is
`operator+=(-n)` and undoes `operator+=(n)`: `(it += n) -= n` and `(it -= n) += n` are `it`. -/
theorem random_advance (it : VariantFieldIterator) (n : Int) :
    ((operator_add_assign it n).m_data_ptr = it.m_data_ptr + n * it.m_format_ptr.size ∧
      (operator_add_assign it n).m_body = it.m_body ∧
      (operator_add_assign it n).m_format_ptr = it.m_format_ptr) ∧
    (0 ≤ n → operator_add_assign it n = increments n.toNat it) ∧
    (n < 0 → operator_add_assign it n = decrements n.natAbs it) ∧
    operator_sub_assign it n = operator_add_assign it (-n) ∧
    operator_sub_assign (operator_add_assign it n) n = it ∧
    operator_add_assign (operator_sub_assign it n) n = it := by
  refine ⟨⟨rfl, rfl, rfl⟩, ?_, ?_, ?_, ?_, ?_⟩
  · intro hn
    obtain ⟨h1, h2, h3⟩ := increments_fields n.toNat it
    apply eq_of_fields
    · rw [h1]
      rfl
    · rw [h2]
      rfl
    · rw [h3, Int.toNat_of_nonneg hn]
      rfl
  · intro hn
    obtain ⟨h1, h2, h3⟩ := decrements_fields n.natAbs it
    apply eq_of_fields
    · rw [h1]
      rfl
    · rw [h2]
      rfl
    · rw [h3]
      have e : ((n.natAbs : Nat) : Int) = -n := by omega
      rw [e]
      simp only [operator_add_assign]
      ring
  · apply eq_of_fields
    · rfl
    · rfl
    · simp only [operator_sub_assign, operator_add_assign]
      ring
  · apply eq_of_fields
    · rfl
    · rfl
    · simp only [operator_sub_assign, operator_add_assign]
      ring
  · apply eq_of_fields
    · rfl
    · rfl
    · simp only [operator_sub_assign, operator_add_assign]
      ring

/-- With the specialised operators the begin-to-end loop over `n >= 1` bytes terminates, and
among the bytes it reads is the one at `last`, the address just past the `n` bytes. -/
theorem traverse_uint8_reads_reaches_last (mem : Memory) (n : Nat) :
    ∀ (fuel : Nat) (it last : VariantFieldIterator), n < fuel →
      it.m_body.addr = last.m_body.addr → last.m_data_ptr = it.m_data_ptr + (n : Int) →
      ∃ reads : List Int, traverse_uint8_reads mem fuel it last = some reads ∧
        reads.length = 2 * n ∧ (1 ≤ n → last.m_data_ptr ∈ reads) := by
  induction n with
  | zero =>
    intro fuel it last hf hb hp
    obtain ⟨f, rfl⟩ : ∃ f, fuel = f + 1 := ⟨fuel - 1, by omega⟩
    have hne : operator_ne it last = false := by
      rw [Bool.eq_false_iff, Ne, operator_ne_iff]
      simp [hb, hp]
    refine ⟨[], ?_, rfl, ?_⟩
    · simp [traverse_uint8_reads, hne]
    · intro h
      omega
  | succ n ih =>
    intro fuel it last hf hb hp
    obtain ⟨f, rfl⟩ : ∃ f, fuel = f + 1 := ⟨fuel - 1, by omega⟩
    have hne : operator_ne it last = true := by
      rw [operator_ne_iff]
      rintro ⟨_, h⟩
      rw [hp] at h
      push_cast at h
      omega
    obtain ⟨rest, hrest, hlen, hmem⟩ := ih f (operator_inc_uint8 mem it).1 last (by omega) hb (by
      rw [hp]
      simp only [operator_inc_uint8]
      push_cast
      ring)
    refine ⟨it.m_data_ptr :: (operator_inc_uint8 mem it).1.m_data_ptr :: rest, ?_, ?_, ?_⟩
    · rw [traverse_uint8_reads, if_pos hne, hrest]
      rfl
    · simp only [List.length_cons, hlen]
      omega
    · intro _
      rcases Nat.eq_zero_or_pos n with h0 | hpos
      · subst h0
        have e : last.m_data_ptr = (operator_inc_uint8 mem it).1.m_data_ptr := by
          rw [hp]
          simp [operator_inc_uint8]
        rw [e]
        simp
      · exact List.mem_cons_of_mem _ (List.mem_cons_of_mem _ (hmem hpos))

/-- C15 (evaluation of the code): for a field of stride 1 in a record with 3 samples (3 bytes at
address 1000), the begin-to-end loop with the specialised operators reads the bytes at offsets
0, 1, 1, 2, 2, 3: the last `operator++` advances to the end position and reads the byte
there, at offset 3, outside `[0, 3)`.  The values `operator*` and `operator++` return are the
bytes at the addresses listed. -/
theorem uint8_traversal_reads_past_the_end :
    (∀ mem : Memory,
      traverse_uint8_reads mem 4 (new ⟨0, 3⟩ ⟨1, 1000⟩ false) (new ⟨0, 3⟩ ⟨1, 1000⟩ true)
        = some [1000, 1001, 1001, 1002, 1002, 1003]) ∧
    ¬ ((1003 : Int) - 1000 < 3) ∧
    (∀ (mem : Memory) (it : VariantFieldIterator),
      operator_deref_uint8 mem it = mem it.m_data_ptr ∧
      (operator_inc_uint8 mem it).2 = mem (operator_inc_uint8 mem it).1.m_data_ptr) ∧
    (∀ mem : Memory,
      (operator_inc_uint8 mem (increments_uint8 mem 2 (new ⟨0, 3⟩ ⟨1, 1000⟩ false))).2
        = mem (1000 + 3)) := by
  refine ⟨fun _ => rfl, by decide, fun _ _ => ⟨rfl, rfl⟩, fun _ => rfl⟩

end VariantFieldIterator

namespace SyncedVariantReader

variable {σ : Type}

theorem add_readers_cons_ok (lib : Htslib σ) (readers : bcf_srs_t σ) (filename : String)
    (rest : List String) (hret : (lib.bcf_sr_add_reader readers (string.c_str filename)).2 = 1) :
    add_readers lib readers (filename :: rest)
      = (HtsCall.add_reader readers (string.c_str filename)
            (lib.bcf_sr_add_reader readers (string.c_str filename)).2 ::
          (add_readers lib (lib.bcf_sr_add_reader readers (string.c_str filename)).1 rest).1,
         (add_readers lib (lib.bcf_sr_add_reader readers (string.c_str filename)).1 rest).2) := by
  rw [add_readers]
  simp [hret]

theorem add_readers_cons_error (lib : Htslib σ) (readers : bcf_srs_t σ) (filename : String)
    (rest : List String) (hret : (lib.bcf_sr_add_reader readers (string.c_str filename)).2 ≠ 1) :
    add_readers lib readers (filename :: rest)
      = ([HtsCall.add_reader readers (string.c_str filename)
            (lib.bcf_sr_add_reader readers (string.c_str filename)).2],
         .error (.FileOpenException filename)) := by
  rw [add_readers]
  simp [hret]

/-- What the registration loop does, from any reader: it either registers every file, or stops
at the first file whose registration does not return 1. -/
theorem add_readers_spec (lib : Htslib σ) (filenames : List String) :
    ∀ readers : bcf_srs_t σ,
      region_calls (add_readers lib readers filenames).1 = [] ∧
      (((∃ r, (add_readers lib readers filenames).2 = .ok r) ∧
          attempted (add_readers lib readers filenames).1 = filenames.map string.c_str ∧
          registered (add_readers lib readers filenames).1 = filenames.map string.c_str ∧
          ∀ ret ∈ add_reader_results (add_readers lib readers filenames).1, ret = 1) ∨
       (∃ (pre : List String) (f : String) (post : List String) (ret : Int),
          filenames = pre ++ f :: post ∧ ret ≠ 1 ∧
          (add_readers lib readers filenames).2 = .error (.FileOpenException f) ∧
          attempted (add_readers lib readers filenames).1 = (pre ++ [f]).map string.c_str ∧
          registered (add_readers lib readers filenames).1 = pre.map string.c_str ∧
          add_reader_results (add_readers lib readers filenames).1
            = List.replicate pre.length 1 ++ [ret])) := by
  induction filenames with
  | nil =>
    intro readers
    refine ⟨rfl, Or.inl ⟨⟨readers, rfl⟩, rfl, rfl, ?_⟩⟩
    intro ret h
    cases h
  | cons filename rest ih =>
    intro readers
    by_cases hret : (lib.bcf_sr_add_reader readers (string.c_str filename)).2 = 1
    · obtain ⟨h1, h3⟩ := ih (lib.bcf_sr_add_reader readers (string.c_str filename)).1
      rw [add_readers_cons_ok lib readers filename rest hret]
      refine ⟨h1, ?_⟩
      rcases h3 with ⟨hok, ha, hr, hall⟩ | ⟨pre, f, post, ret, hsplit, hne, herr, ha, hr, hres⟩
      · refine Or.inl ⟨hok, ?_, ?_, ?_⟩
        · simp [attempted, ha]
        · simp [registered, hret, hr]
        · intro ret h
          simp only [add_reader_results, List.mem_cons] at h
          rcases h with h | h
          · rw [h, hret]
          · exact hall ret h
      · refine Or.inr ⟨filename :: pre, f, post, ret, ?_, hne, herr, ?_, ?_, ?_⟩
        · rw [hsplit]
          rfl
        · simp [attempted, ha]
        · simp [registered, hret, hr]
        · simp [add_reader_results, hret, hres, List.replicate_succ]
    · rw [add_readers_cons_error lib readers filename rest hret]
      refine ⟨rfl, Or.inr ⟨[], filename, rest, _, rfl, hret, rfl, ?_, ?_, ?_⟩⟩
      · simp [attempted]
      · simp [registered, hret]
      · simp [add_reader_results]

theorem new_of_empty (lib : Htslib σ) (filenames : List String) :
    new lib filenames "" =
      ((add_readers lib { lib.bcf_sr_init with require_index := 1 } filenames).1,
        match (add_readers lib { lib.bcf_sr_init with require_index := 1 } filenames).2 with
        | .error e => .error e
        | .ok r => .ok ⟨r⟩) := by
  simp [new, set_intervals]

theorem new_of_regions_error (lib : Htslib σ) (filenames : List String) (interval_list : String)
    (h : interval_list ≠ "")
    (hret : (lib.bcf_sr_set_regions lib.bcf_sr_init (string.c_str interval_list) 0).2 ≠ 0) :
    new lib filenames interval_list =
      ([HtsCall.set_regions lib.bcf_sr_init (string.c_str interval_list) 0
          (lib.bcf_sr_set_regions lib.bcf_sr_init (string.c_str interval_list) 0).2],
        .error (.HtslibException
          (lib.bcf_sr_set_regions lib.bcf_sr_init (string.c_str interval_list) 0).2)) := by
  simp [new, set_intervals, h, hret]

theorem new_of_regions_ok (lib : Htslib σ) (filenames : List String) (interval_list : String)
    (h : interval_list ≠ "")
    (hret : (lib.bcf_sr_set_regions lib.bcf_sr_init (string.c_str interval_list) 0).2 = 0) :
    new lib filenames interval_list =
      (HtsCall.set_regions lib.bcf_sr_init (string.c_str interval_list) 0
          (lib.bcf_sr_set_regions lib.bcf_sr_init (string.c_str interval_list) 0).2 ::
        (add_readers lib
          (lib.bcf_sr_set_regions lib.bcf_sr_init (string.c_str interval_list) 0).1
          filenames).1,
        match (add_readers lib
            (lib.bcf_sr_set_regions lib.bcf_sr_init (string.c_str interval_list) 0).1
            filenames).2 with
        | .error e => .error e
        | .ok r => .ok ⟨r⟩) := by
  simp [new, set_intervals, h, hret]

theorem string_c_str_of_no_NUL (s : String) (h : Char.ofNat 0 ∉ s.toList) : string.c_str s = s := by
  unfold string.c_str
  have e : s.toList.takeWhile (fun c => c ≠ Char.ofNat 0) = s.toList := by
    rw [List.takeWhile_eq_self_iff]
    intro c hc
    have : c ≠ Char.ofNat 0 := fun e => h (e ▸ hc)
    simpa using this
  rw [e]
  cases s
  rfl

theorem add_readers_no_htslib_exception (lib : Htslib σ) (filenames : List String)
    (readers : bcf_srs_t σ) (c : Int) :
    (match (add_readers lib readers filenames).2 with
      | .error e => (Except.error e : Except Exception (SyncedVariantReader σ))
      | .ok r => .ok ⟨r⟩) ≠ .error (.HtslibException c) := by
  obtain ⟨_, h3⟩ := add_readers_spec lib filenames readers
  rcases h3 with ⟨⟨r, hok⟩, _⟩ | ⟨pre, f, post, ret, _, _, herr, _⟩
  · rw [hok]
    intro h
    cases h
  · rw [herr]
    intro h
    cases h

/-- C8 (as stated, refuted): for the non-empty `interval_list` made of a NUL character
followed by `chr1`, `bcf_sr_set_regions` is called with the empty C string, not with that
string: it receives `interval_list.c_str()`. -/
theorem regions_argument_is_a_c_string :
    ("\x00chr1" : String) ≠ "" ∧
    region_calls (new accepting_lib [] "\x00chr1").1 = [("", 0)] ∧
    region_calls (new accepting_lib [] "\x00chr1").1 ≠ [("\x00chr1", 0)] := by
  refine ⟨by decide, by decide, by decide⟩

/-- C8 (amended): with an empty `interval_list` the constructor never calls
`bcf_sr_set_regions`, and the interval handling leaves the reader of `bcf_sr_init` with
`require_index = 1`, which is the reader the registration loop starts from (and the reader
held when there is no file).  With a non-empty `interval_list` the first htslib call is
`bcf_sr_set_regions(readers, interval_list.c_str(), 0)` on the reader of `bcf_sr_init`, with
the string read as a C string (the string itself when it has no NUL character); no other call
of it follows (so it is called exactly once, before any registration); if it returns `c != 0`
the constructor throws `HtslibException(c)` having made no other call: no file is registered;
if it returns 0 the registration loop follows on the reader it left and no `HtslibException`
is thrown. -/
theorem interval_handling (lib : Htslib σ) (filenames : List String) (interval_list : String) :
    (interval_list = "" →
      region_calls (new lib filenames interval_list).1 = [] ∧
      set_intervals lib lib.bcf_sr_init interval_list
        = ([], .ok { lib.bcf_sr_init with require_index := 1 }) ∧
      (new lib filenames interval_list).1
        = (add_readers lib { lib.bcf_sr_init with require_index := 1 } filenames).1 ∧
      new lib [] interval_list = ([], .ok ⟨{ lib.bcf_sr_init with require_index := 1 }⟩) ∧
      ∀ c, (new lib filenames interval_list).2 ≠ .error (.HtslibException c)) ∧
    (interval_list ≠ "" →
      ∃ rest : List (HtsCall σ),
        (new lib filenames interval_list).1
          = HtsCall.set_regions lib.bcf_sr_init (string.c_str interval_list) 0
              (lib.bcf_sr_set_regions lib.bcf_sr_init (string.c_str interval_list) 0).2 :: rest ∧
        region_calls rest = [] ∧
        region_calls (new lib filenames interval_list).1 = [(string.c_str interval_list, 0)] ∧
        ((lib.bcf_sr_set_regions lib.bcf_sr_init (string.c_str interval_list) 0).2 ≠ 0 →
          (new lib filenames interval_list).2
            = .error (.HtslibException
                (lib.bcf_sr_set_regions lib.bcf_sr_init (string.c_str interval_list) 0).2) ∧
          rest = [] ∧ attempted (new lib filenames interval_list).1 = []) ∧
        ((lib.bcf_sr_set_regions lib.bcf_sr_init (string.c_str interval_list) 0).2 = 0 →
          rest = (add_readers lib
            (lib.bcf_sr_set_regions lib.bcf_sr_init (string.c_str interval_list) 0).1
            filenames).1 ∧
          ∀ c, (new lib filenames interval_list).2 ≠ .error (.HtslibException c))) ∧
    (Char.ofNat 0 ∉ interval_list.toList → string.c_str interval_list = interval_list) := by
  refine ⟨?_, ?_, string_c_str_of_no_NUL interval_list⟩
  · intro hemp
    subst hemp
    rw [new_of_empty, new_of_empty]
    refine ⟨(add_readers_spec lib filenames _).1, ?_, rfl, rfl, ?_⟩
    · simp [set_intervals]
    · intro c
      exact add_readers_no_htslib_exception lib filenames _ c
  · intro hne
    by_cases hret :
        (lib.bcf_sr_set_regions lib.bcf_sr_init (string.c_str interval_list) 0).2 = 0
    · rw [new_of_regions_ok lib filenames interval_list hne hret]
      have hrc := (add_readers_spec lib filenames
        (lib.bcf_sr_set_regions lib.bcf_sr_init (string.c_str interval_list) 0).1).1
      refine ⟨_, rfl, hrc, ?_, ?_, ?_⟩
      · simp [region_calls, hrc]
      · intro h
        exact absurd hret h
      · intro _
        refine ⟨rfl, ?_⟩
        intro c
        exact add_readers_no_htslib_exception lib filenames _ c
    · rw [new_of_regions_error lib filenames interval_list hne hret]
      refine ⟨[], rfl, rfl, rfl, fun _ => ⟨rfl, rfl, rfl⟩, ?_⟩
      intro h
      exact absurd h hret

end SyncedVariantReader

namespace SynchronizedMultiReader

theorem Coordinate.lt_irrefl (a : Coordinate) : a.lt a = false := by
  simp [Coordinate.lt]

theorem Coordinate.lt_trans {a b c : Coordinate} (h1 : a.lt b = true) (h2 : b.lt c = true) :
    a.lt c = true := by
  simp only [Coordinate.lt, Bool.or_eq_true, Bool.and_eq_true, decide_eq_true_eq] at *
  omega

theorem Coordinate.lt_of_not_lt_of_ne {a b : Coordinate} (h1 : b.lt a = false) (h2 : a ≠ b) :
    a.lt b = true := by
  cases a with
  | mk ac ap =>
    cases b with
    | mk bc bp =>
      simp only [Coordinate.lt, Bool.or_eq_false_iff, Bool.and_eq_false_iff, decide_eq_false_iff_not,
        Bool.or_eq_true, Bool.and_eq_true, decide_eq_true_eq, ne_eq, Coordinate.mk.injEq] at *
      omega

theorem min_coord_none {sources : List RecordSource} (h : min_coord sources = none) :
    ∀ s ∈ sources, s = [] := by
  induction sources with
  | nil =>
    intro s hs
    cases hs
  | cons s rest ih =>
    cases s with
    | nil =>
      simp only [min_coord, current_coordinate] at h
      intro t ht
      rcases List.mem_cons.1 ht with rfl | ht
      · rfl
      · exact ih h t ht
    | cons r tl =>
      simp only [min_coord, current_coordinate] at h
      cases hm : min_coord rest with
      | none => simp [hm] at h
      | some m =>
        simp only [hm] at h
        split_ifs at h

theorem min_coord_some {sources : List RecordSource} {m : Coordinate}
    (h : min_coord sources = some m) :
    (∃ s ∈ sources, current_coordinate s = some m) ∧
    ∀ s ∈ sources, ∀ c, current_coordinate s = some c → c.lt m = false := by
  induction sources generalizing m with
  | nil => cases h
  | cons s rest ih =>
    cases s with
    | nil =>
      simp only [min_coord, current_coordinate] at h
      obtain ⟨⟨t, ht, hc⟩, hall⟩ := ih h
      refine ⟨⟨t, List.mem_cons_of_mem _ ht, hc⟩, ?_⟩
      intro u hu c hcu
      rcases List.mem_cons.1 hu with rfl | hu
      · cases hcu
      · exact hall u hu c hcu
    | cons r tl =>
      simp only [min_coord, current_coordinate] at h
      cases hm : min_coord rest with
      | none =>
        simp only [hm, Option.some.injEq] at h
        subst h
        refine ⟨⟨r :: tl, List.mem_cons_self _ _, rfl⟩, ?_⟩
        intro u hu c hcu
        rcases List.mem_cons.1 hu with rfl | hu
        · simp only [current_coordinate, Option.some.injEq] at hcu
          rw [← hcu]
          exact Coordinate.lt_irrefl _
        · rw [min_coord_none hm u hu] at hcu
          cases hcu
      | some m0 =>
        simp only [hm] at h
        obtain ⟨⟨t, ht, hc⟩, hall⟩ := ih hm
        by_cases hlt : m0.lt r.coordinate = true
        · rw [if_pos hlt, Option.some.injEq] at h
          subst h
          refine ⟨⟨t, List.mem_cons_of_mem _ ht, hc⟩, ?_⟩
          intro u hu c hcu
          rcases List.mem_cons.1 hu with rfl | hu
          · simp only [current_coordinate, Option.some.injEq] at hcu
            rw [← hcu]
            by_contra hcon
            have h2 := Coordinate.lt_trans hlt (by simpa using hcon)
            rw [Coordinate.lt_irrefl] at h2
            cases h2
          · exact hall u hu c hcu
        · rw [if_neg hlt, Option.some.injEq] at h
          subst h
          have hlt2 : m0.lt r.coordinate = false := by simpa using hlt
          refine ⟨⟨r :: tl, List.mem_cons_self _ _, rfl⟩, ?_⟩
          intro u hu c hcu
          rcases List.mem_cons.1 hu with rfl | hu
          · simp only [current_coordinate, Option.some.injEq] at hcu
            rw [← hcu]
            exact Coordinate.lt_irrefl _
          · have h3 := hall u hu c hcu
            by_contra hcon
            have hcon2 : c.lt r.coordinate = true := by simpa using hcon
            by_cases heq : r.coordinate = m0
            · rw [heq, h3] at hcon2
              cases hcon2
            · have h4 := Coordinate.lt_trans hcon2 (Coordinate.lt_of_not_lt_of_ne hlt2 heq)
              rw [h3] at h4
              cases h4

theorem consume_snd_subset (m : Coordinate) (s : RecordSource) :
    ∀ r ∈ (consume m s).2, r ∈ s := by
  cases s with
  | nil =>
    intro r hr
    exact hr
  | cons r0 tl =>
    intro r hr
    by_cases h : r0.coordinate = m
    · simp only [consume, if_pos h] at hr
      exact List.mem_cons_of_mem _ hr
    · simp only [consume, if_neg h] at hr
      exact hr

theorem mem_consume (m : Coordinate) (s : RecordSource) :
    ∀ r ∈ s, r ∈ (consume m s).2 ∨ r.coordinate = m := by
  cases s with
  | nil =>
    intro r hr
    cases hr
  | cons r0 tl =>
    intro r hr
    by_cases h : r0.coordinate = m
    · simp only [consume, if_pos h]
      rcases List.mem_cons.1 hr with rfl | hr
      · exact Or.inr h
      · exact Or.inl hr
    · simp only [consume, if_neg h]
      exact Or.inl hr

theorem consume_sorted (m : Coordinate) (s : RecordSource) (hs : StrictlySorted s) :
    StrictlySorted (consume m s).2 := by
  cases s with
  | nil => exact hs
  | cons r0 tl =>
    by_cases h : r0.coordinate = m
    · simp only [consume, if_pos h]
      exact (List.pairwise_cons.1 hs).2
    · simp only [consume, if_neg h]
      exact hs

theorem consume_length_le (m : Coordinate) (s : RecordSource) :
    (consume m s).2.length ≤ s.length := by
  cases s with
  | nil => exact Nat.le_refl _
  | cons r0 tl =>
    by_cases h : r0.coordinate = m
    · simp [consume, h]
    · simp [consume, h]

theorem consume_length_lt (m : Coordinate) (s : RecordSource)
    (h : current_coordinate s = some m) : (consume m s).2.length < s.length := by
  cases s with
  | nil => cases h
  | cons r0 tl =>
    simp only [current_coordinate, Option.some.injEq] at h
    simp [consume, h]

/-- After the pull at `m`, every record a strictly sorted source still holds lies beyond `m`,
provided `m` was not beyond the source's head. -/
theorem consume_gt (m : Coordinate) (s : RecordSource) (hs : StrictlySorted s)
    (hmin : ∀ c, current_coordinate s = some c → c.lt m = false) :
    ∀ r ∈ (consume m s).2, m.lt r.coordinate = true := by
  cases s with
  | nil =>
    intro r hr
    cases hr
  | cons r0 tl =>
    have h0 := hmin r0.coordinate rfl
    obtain ⟨hhead, _⟩ := List.pairwise_cons.1 hs
    by_cases h : r0.coordinate = m
    · simp only [consume, if_pos h]
      intro r hr
      rw [← h]
      exact hhead r hr
    · simp only [consume, if_neg h]
      have hm : m.lt r0.coordinate = true :=
        Coordinate.lt_of_not_lt_of_ne h0 (fun e => h e.symm)
      intro r hr
      rcases List.mem_cons.1 hr with rfl | hr
      · exact hm
      · exact Coordinate.lt_trans hm (hhead r hr)

/-- The slot filled by the pull at `m` is present exactly when the source holds a record at
`m`, for a strictly sorted source whose head `m` is not beyond. -/
theorem consume_present (m : Coordinate) (s : RecordSource) (hs : StrictlySorted s)
    (hmin : ∀ c, current_coordinate s = some c → c.lt m = false) :
    (consume m s).1.isSome = true ↔ ∃ r ∈ s, r.coordinate = m := by
  cases s with
  | nil => simp [consume]
  | cons r0 tl =>
    have h0 := hmin r0.coordinate rfl
    obtain ⟨hhead, _⟩ := List.pairwise_cons.1 hs
    by_cases h : r0.coordinate = m
    · simp only [consume, if_pos h, Option.isSome_some, true_iff]
      exact ⟨r0, List.mem_cons_self _ _, h⟩
    · simp only [consume, if_neg h, Option.isSome_none, Bool.false_eq_true, false_iff]
      rintro ⟨r, hr, hrm⟩
      rcases List.mem_cons.1 hr with rfl | hr
      · exact h hrm
      · have h1 := hhead r hr
        rw [hrm, h0] at h1
        cases h1

theorem rows_succ (fuel : Nat) (sources : List RecordSource) :
    rows (fuel + 1) sources =
      match step sources with
      | none => []
      | some (row, next) => row :: rows fuel next := rfl

theorem step_of_min_coord_none {sources : List RecordSource} (h : min_coord sources = none) :
    step sources = none := by
  simp [step, h]

theorem step_of_min_coord_some {sources : List RecordSource} {m : Coordinate}
    (h : min_coord sources = some m) :
    step sources = some (⟨m, sources.map (fun s => (consume m s).1)⟩,
      sources.map (fun s => (consume m s).2)) := by
  simp [step, h]

/-- Every row is emitted at the coordinate of a record some source still holds. -/
theorem rows_coordinate_pending (fuel : Nat) :
    ∀ (sources : List RecordSource) (row : SynchronizedRow), row ∈ rows fuel sources →
      ∃ s ∈ sources, ∃ r ∈ s, r.coordinate = row.coordinate := by
  induction fuel with
  | zero =>
    intro sources row h
    cases h
  | succ fuel ih =>
    intro sources row h
    rw [rows_succ] at h
    cases hm : min_coord sources with
    | none =>
      rw [step_of_min_coord_none hm] at h
      cases h
    | some m =>
      rw [step_of_min_coord_some hm] at h
      rcases List.mem_cons.1 h with rfl | h
      · obtain ⟨⟨s, hs, hc⟩, _⟩ := min_coord_some hm
        cases s with
        | nil => cases hc
        | cons r0 tl =>
          simp only [current_coordinate, Option.some.injEq] at hc
          exact ⟨r0 :: tl, hs, r0, List.mem_cons_self _ _, hc⟩
      · obtain ⟨s1, hs1, r, hr, hrc⟩ := ih _ row h
        obtain ⟨s, hs, rfl⟩ := List.mem_map.1 hs1
        exact ⟨s, hs, r, consume_snd_subset m s r hr, hrc⟩

theorem present_iff_of_slot {row : SynchronizedRow} {i : Nat} {slot : Option VariantRecord}
    (h : row.slots[i]? = some slot) : row.present i = true ↔ slot.isSome = true := by
  unfold SynchronizedRow.present
  rw [h]
  cases slot <;> simp

/-- Per-row correctness, for any number of pulls, stated on the source found at slot `i`. -/
theorem rows_present_iff (fuel : Nat) :
    ∀ (sources : List RecordSource), (∀ s ∈ sources, StrictlySorted s) →
      ∀ row ∈ rows fuel sources, row.slots.length = sources.length ∧
        ∀ (i : Nat) (s : RecordSource), sources[i]? = some s →
          (row.present i = true ↔ ∃ r ∈ s, r.coordinate = row.coordinate) := by
  induction fuel with
  | zero =>
    intro sources _ row h
    cases h
  | succ fuel ih =>
    intro sources hsorted row h
    rw [rows_succ] at h
    cases hm : min_coord sources with
    | none =>
      rw [step_of_min_coord_none hm] at h
      cases h
    | some m =>
      rw [step_of_min_coord_some hm] at h
      obtain ⟨_, hmin⟩ := min_coord_some hm
      rcases List.mem_cons.1 h with rfl | h
      · refine ⟨by simp, ?_⟩
        intro i s hi
        have hslot : (sources.map (fun s => (consume m s).1))[i]? = some (consume m s).1 := by
          rw [List.getElem?_map, hi]
          rfl
        have hmem : s ∈ sources := List.getElem?_mem hi
        rw [present_iff_of_slot hslot]
        exact consume_present m s (hsorted s hmem) (hmin s hmem)
      · have hnext : ∀ t ∈ sources.map (fun s => (consume m s).2), StrictlySorted t := by
          intro t ht
          obtain ⟨s, hs, rfl⟩ := List.mem_map.1 ht
          exact consume_sorted m s (hsorted s hs)
        obtain ⟨hlen, hrow⟩ := ih _ hnext row h
        refine ⟨by simpa using hlen, ?_⟩
        intro i s hi
        have hmem : s ∈ sources := List.getElem?_mem hi
        have hi2 : (sources.map (fun s => (consume m s).2))[i]? = some (consume m s).2 := by
          rw [List.getElem?_map, hi]
          rfl
        rw [hrow i _ hi2]
        constructor
        · rintro ⟨r, hr, hrc⟩
          exact ⟨r, consume_snd_subset m s r hr, hrc⟩
        · rintro ⟨r, hr, hrc⟩
          rcases mem_consume m s r hr with hin | hrm
          · exact ⟨r, hin, hrc⟩
          · exfalso
            obtain ⟨t, ht, r1, hr1, hr1c⟩ := rows_coordinate_pending fuel _ row h
            obtain ⟨s1, hs1, rfl⟩ := List.mem_map.1 ht
            have hgt := consume_gt m s1 (hsorted s1 hs1) (hmin s1 hs1) r1 hr1
            rw [hr1c, ← hrc, hrm, Coordinate.lt_irrefl] at hgt
            cases hgt

theorem pending_step_lt {sources : List RecordSource} {m : Coordinate}
    (hm : min_coord sources = some m) :
    pending (sources.map (fun s => (consume m s).2)) < pending sources := by
  obtain ⟨⟨s, hs, hc⟩, _⟩ := min_coord_some hm
  unfold pending
  rw [List.map_map]
  apply List.sum_lt_sum
  · intro t _
    exact consume_length_le m t
  · exact ⟨s, hs, consume_length_lt m s hc⟩

theorem min_coord_of_pending_zero {sources : List RecordSource} (h : pending sources = 0) :
    min_coord sources = none := by
  cases hm : min_coord sources with
  | none => rfl
  | some m =>
    have := pending_step_lt hm
    omega

/-- Once the fuel covers the pending records, one more pull adds no row. -/
theorem rows_stable_succ (fuel : Nat) :
    ∀ sources : List RecordSource, pending sources ≤ fuel →
      rows (fuel + 1) sources = rows fuel sources := by
  induction fuel with
  | zero =>
    intro sources h
    rw [rows_succ, step_of_min_coord_none (min_coord_of_pending_zero (by omega))]
    rfl
  | succ fuel ih =>
    intro sources h
    rw [rows_succ, rows_succ]
    cases hm : min_coord sources with
    | none => rw [step_of_min_coord_none hm]
    | some m =>
      rw [step_of_min_coord_some hm]
      have hlt := pending_step_lt hm
      simp only
      rw [ih _ (by omega)]

/-- The traversal is complete: no amount of further pulls yields more rows than
`synchronized_rows`. -/
theorem rows_stable (sources : List RecordSource) (fuel : Nat) (h : pending sources ≤ fuel) :
    rows fuel sources = synchronized_rows sources := by
  unfold synchronized_rows
  induction fuel with
  | zero =>
    have : pending sources = 0 := by omega
    rw [this]
  | succ fuel ih =>
    rcases Nat.eq_or_lt_of_le h with heq | hlt
    · rw [heq]
    · rw [rows_stable_succ fuel sources (by omega)]
      exact ih (by omega)

/-- C6 (as stated, refuted): the sources of `repeated_coordinate` are coordinate-sorted
(non-decreasing), the traversal emits two rows at `(chr1, 100)`, and in the second one the slot
of source 1 is missing although source 1 contains a record at exactly `(chr1, 100)`. -/
theorem per_row_correctness_fails_on_repeated_coordinate :
    (∀ s ∈ repeated_coordinate, CoordinateSorted s) ∧
    synchronized_rows repeated_coordinate =
      [⟨⟨0, 100⟩, [some ⟨0, 100, 1⟩, some ⟨0, 100, 3⟩]⟩, ⟨⟨0, 100⟩, [some ⟨0, 100, 2⟩, none]⟩] ∧
    (∃ row ∈ synchronized_rows repeated_coordinate,
      row.present 1 = false ∧ has_record_at repeated_coordinate 1 row.coordinate) ∧
    ¬ (∀ sources : List RecordSource, (∀ s ∈ sources, CoordinateSorted s) →
        ∀ row ∈ synchronized_rows sources, ∀ i : Nat, i < sources.length →
          (row.present i = true ↔ has_record_at sources i row.coordinate)) := by
  have hsorted : ∀ s ∈ repeated_coordinate, CoordinateSorted s := by decide
  have hrow : (⟨⟨0, 100⟩, [some ⟨0, 100, 2⟩, none]⟩ : SynchronizedRow)
      ∈ synchronized_rows repeated_coordinate := by decide
  refine ⟨hsorted, by decide, ⟨_, hrow, by decide, by decide⟩, ?_⟩
  intro hall
  have h := (hall repeated_coordinate hsorted _ hrow 1 (by decide)).2 (by decide)
  revert h
  decide

/-- C6 (amended): for sources whose coordinates strictly increase (coordinate-sorted, at most
one record per coordinate in each source), every row of the traversal has one slot per source,
and the slot of source `i` is present iff source `i` contains a record at exactly the row's
coordinate (missing otherwise); the traversal is the whole stream: any number of pulls that
covers the pending records yields exactly these rows. -/
theorem per_row_correctness (sources : List RecordSource)
    (hsorted : ∀ s ∈ sources, StrictlySorted s) :
    (∀ row ∈ synchronized_rows sources, row.slots.length = sources.length ∧
      ∀ i : Nat, i < sources.length →
        (row.present i = true ↔ has_record_at sources i row.coordinate) ∧
        (row.present i = false ↔ ¬ has_record_at sources i row.coordinate)) ∧
    (∀ fuel : Nat, pending sources ≤ fuel → rows fuel sources = synchronized_rows sources) := by
  refine ⟨?_, fun fuel h => rows_stable sources fuel h⟩
  intro row hrow
  obtain ⟨hlen, hslots⟩ := rows_present_iff (pending sources) sources hsorted row hrow
  refine ⟨hlen, ?_⟩
  intro i hi
  have hget : sources[i]? = some sources[i] := List.getElem?_eq_getElem hi
  have hiff : row.present i = true ↔ has_record_at sources i row.coordinate := by
    rw [hslots i _ hget]
    unfold has_record_at
    rw [List.getD_eq_getElem?_getD, hget]
    rfl
  refine ⟨hiff, ?_⟩
  rw [← hiff]
  cases row.present i <;> simp

/-- C6 (amended) on the scenario of section 8: sources A, B, C give three rows, at 100 (A and B
present), 150 (C present) and 200 (A and C present). -/
theorem per_row_correctness_witness :
    (∀ s ∈ scenario, StrictlySorted s) ∧
    (synchronized_rows scenario).map
        (fun row => (row.coordinate, [row.present 0, row.present 1, row.present 2]))
      = [(⟨0, 100⟩, [true, true, false]), (⟨0, 150⟩, [false, false, true]),
         (⟨0, 200⟩, [true, false, true])] ∧
    ∀ row ∈ synchronized_rows scenario, row.slots.length = scenario.length ∧
      ∀ i : Nat, i < scenario.length →
        (row.present i = true ↔ has_record_at scenario i row.coordinate) ∧
        (row.present i = false ↔ ¬ has_record_at scenario i row.coordinate) :=
  ⟨by decide, by decide, (per_row_correctness scenario (by decide)).1⟩

end SynchronizedMultiReader

namespace SamHeader

/-- C10 (evaluation of the code): on the two-line header `@HD VN:1.4` / `@CO see @RG ID:x`
(each line ended by a newline, none beginning with `@RG`), `read_groups` returns one read
group, constructed from the tail `@RG ID:x` of the comment line; on a header whose only
`@RG` line is `@RG ID:a` it returns the read group of that line. -/
theorem read_groups_takes_tag_inside_line :
    read_groups 3 "@HD\tVN:1.4\n@CO\tsee @RG\tID:x\n" = some [⟨"@RG\tID:x"⟩] ∧
    read_groups 3 "@HD\tVN:1.4\n@RG\tID:a\n" = some [⟨"@RG\tID:a"⟩] := by
  refine ⟨by decide, by decide⟩

theorem Char.toNat_injective {a b : Char} (h : a.toNat = b.toNat) : a = b := by
  have := congrArg Char.ofNat h
  simpa [Char.ofNat_toNat] using this

theorem toNat_eq_zero_iff (a : Char) : (a.toNat : Int) = 0 ↔ a = NUL := by
  constructor
  · intro h
    have h0 : a.toNat = NUL.toNat := by
      have : a.toNat = 0 := by exact_mod_cast h
      rw [this]
      rfl
    exact Char.toNat_injective h0
  · intro h
    rw [h]
    rfl

theorem c_str_cons (a : Char) (as : List Char) :
    c_str (a :: as) = if a = NUL then [] else a :: c_str as := by
  unfold c_str
  rw [List.takeWhile_cons]
  by_cases h : a = NUL <;> simp [h]

/-- The test `strcmp(s1, s2) == 0` holds exactly when the two C strings are equal. -/
theorem strcmp_eq_zero_iff (a : List Char) : ∀ b : List Char,
    strcmp a b = 0 ↔ c_str a = c_str b := by
  induction a with
  | nil =>
    intro b
    cases b with
    | nil => simp [strcmp]
    | cons b0 bs =>
      rw [strcmp, c_str_cons, zero_sub, neg_eq_zero, toNat_eq_zero_iff]
      by_cases h : b0 = NUL
      · simp [h, c_str]
      · simp [h, c_str]
  | cons a0 as ih =>
    intro b
    cases b with
    | nil =>
      rw [strcmp, c_str_cons, sub_zero, toNat_eq_zero_iff]
      by_cases h : a0 = NUL
      · simp [h, c_str]
      · simp [h, c_str]
    | cons b0 bs =>
      rw [strcmp, c_str_cons, c_str_cons]
      by_cases hab : a0 = b0
      · subst hab
        by_cases h : a0 = NUL
        · simp [h]
        · simp [h, ih bs]
      · have hne : (a0.toNat : Int) - (b0.toNat : Int) ≠ 0 := by
          intro h
          apply hab
          apply Char.toNat_injective
          omega
        rw [if_pos hab]
        by_cases ha : a0 = NUL
        · have hb : ¬ b0 = NUL := fun hb => hab (ha.trans hb.symm)
          simp [ha, hb, hne]
          intro h
          have := (toNat_eq_zero_iff b0).1 (by
            have e : (NUL.toNat : Int) = 0 := rfl
            omega)
          exact hb this
        · by_cases hb : b0 = NUL
          · simp [ha, hb, hne]
            intro h
            have := (toNat_eq_zero_iff a0).1 (by
              have e : (NUL.toNat : Int) = 0 := rfl
              omega)
            exact ha this
          · simp [ha, hb, hne, hab]

theorem c_str_of_no_NUL (s : List Char) (h : NUL ∉ s) : c_str s = s := by
  unfold c_str
  rw [List.takeWhile_eq_self_iff]
  intro c hc
  have : c ≠ NUL := fun e => h (e ▸ hc)
  simpa using this

theorem sequence_length_loop_found (h : bam_hdr_t) (c : List Char) (k : Nat) (t : String)
    (l : Nat) (hk : h.target_name[k]? = some t) (hl : h.target_len[k]? = some l)
    (hm : c_str c = c_str t.toList) (hwf : h.WellFormed) :
    ∀ (fuel i : Nat), i ≤ k → k - i < fuel →
      (∀ (j : Nat) (t1 : String), i ≤ j → j < k → h.target_name[j]? = some t1 →
        c_str c ≠ c_str t1.toList) →
      sequence_length_loop h c fuel i = some l := by
  have hkn : k < h.target_name.length := (List.getElem?_eq_some.1 hk).1
  intro fuel
  induction fuel with
  | zero =>
    intro i _ hf _
    omega
  | succ fuel ih =>
    intro i hik hf hne
    have hlt : (i : Int) < h.n_targets := by
      have := hwf.1
      omega
    obtain ⟨ti, hti⟩ : ∃ ti, h.target_name[i]? = some ti :=
      ⟨_, List.getElem?_eq_getElem (by omega)⟩
    rw [sequence_length_loop, if_pos hlt, hti]
    simp only
    rcases Nat.eq_or_lt_of_le hik with heq | hlt2
    · subst heq
      rw [hk] at hti
      cases hti
      rw [if_pos ((strcmp_eq_zero_iff _ _).2 hm)]
      exact hl
    · have hno : ¬ strcmp c ti.toList = 0 := by
        rw [strcmp_eq_zero_iff]
        exact hne i ti (Nat.le_refl _) hlt2 hti
      rw [if_neg hno]
      exact ih (i + 1) hlt2 (by omega) (fun j t1 h1 h2 h3 => hne j t1 (by omega) h2 h3)

theorem sequence_length_loop_not_found (h : bam_hdr_t) (c : List Char) (hwf : h.WellFormed) :
    ∀ (fuel i : Nat), h.n_targets.toNat - i < fuel →
      (∀ (j : Nat) (t1 : String), i ≤ j → h.target_name[j]? = some t1 →
        c_str c ≠ c_str t1.toList) →
      sequence_length_loop h c fuel i = some 0 := by
  intro fuel
  induction fuel with
  | zero =>
    intro i hf _
    omega
  | succ fuel ih =>
    intro i hf hne
    by_cases hlt : (i : Int) < h.n_targets
    · obtain ⟨ti, hti⟩ : ∃ ti, h.target_name[i]? = some ti :=
        ⟨_, List.getElem?_eq_getElem (by have := hwf.1; omega)⟩
      have hno : ¬ strcmp c ti.toList = 0 := by
        rw [strcmp_eq_zero_iff]
        exact hne i ti (Nat.le_refl _) hti
      rw [sequence_length_loop, if_pos hlt, hti]
      simp only
      rw [if_neg hno]
      exact ih (i + 1) (by omega) (fun j t1 h1 h3 => hne j t1 (by omega) h3)
    · rw [sequence_length_loop, if_neg hlt]

/-- C11 (as stated, refuted): with the single target `chr1` of length 1000 and the name
`chr1` followed by a `NUL` character and `x`, no `target_name[i]` equals the name, yet
`sequence_length` returns 1000, not 0. -/
theorem sequence_length_compares_up_to_NUL :
    (⟨1, ["chr1"], [1000]⟩ : bam_hdr_t).WellFormed ∧
    (∀ t ∈ (⟨1, ["chr1"], [1000]⟩ : bam_hdr_t).target_name, t ≠ "chr1\x00x") ∧
    sequence_length ⟨1, ["chr1"], [1000]⟩ "chr1\x00x" = some 1000 ∧
    sequence_length ⟨1, ["chr1"], [1000]⟩ "chr1\x00x" ≠ some 0 := by
  refine ⟨by decide, by decide, by decide, by decide⟩

/-- C11 (amended): on a well-formed header, `sequence_length(name)` returns `target_len[i]` for
the smallest `i` in `[0, n_targets)` whose `target_name[i]` equals `name` as a C string (the
characters before the first `NUL`), and returns 0 when no target does; for a name and a target
name without `NUL` character, equal as C strings means equal. -/
theorem sequence_length_first_match (h : bam_hdr_t) (hwf : h.WellFormed) (name : String) :
    (∀ (i : Nat) (t : String) (l : Nat), h.target_name[i]? = some t → h.target_len[i]? = some l →
      c_str t.toList = c_str name.toList →
      (∀ (j : Nat) (t1 : String), j < i → h.target_name[j]? = some t1 →
        c_str t1.toList ≠ c_str name.toList) →
      (i : Int) < h.n_targets ∧ sequence_length h name = some l) ∧
    ((∀ (i : Nat) (t : String), h.target_name[i]? = some t →
        c_str t.toList ≠ c_str name.toList) →
      sequence_length h name = some 0) ∧
    (∀ t : String, NUL ∉ name.toList → NUL ∉ t.toList →
      (c_str t.toList = c_str name.toList ↔ t = name)) := by
  refine ⟨?_, ?_, ?_⟩
  · intro i t l hk hl hm hfirst
    have hin : i < h.target_name.length := (List.getElem?_eq_some.1 hk).1
    refine ⟨by have := hwf.1; omega, ?_⟩
    exact sequence_length_loop_found h name.toList i t l hk hl hm.symm hwf _ 0 (Nat.zero_le _)
      (by have := hwf.1; omega) (fun j t1 _ h2 h3 => (hfirst j t1 h2 h3).symm)
  · intro hnone
    exact sequence_length_loop_not_found h name.toList hwf _ 0 (by omega)
      (fun j t1 _ h3 => (hnone j t1 h3).symm)
  · intro t hn ht
    rw [c_str_of_no_NUL _ hn, c_str_of_no_NUL _ ht]
    constructor
    · intro e
      exact String.ext e
    · intro e
      rw [e]

/-- C11 (amended) at a concrete input: targets `chr1` (1000) and `chr2` (2000), name `chr2`. -/
theorem sequence_length_first_match_witness :
    (⟨2, ["chr1", "chr2"], [1000, 2000]⟩ : bam_hdr_t).WellFormed ∧
    sequence_length ⟨2, ["chr1", "chr2"], [1000, 2000]⟩ "chr2" = some 2000 :=
  ⟨by decide,
    ((sequence_length_first_match ⟨2, ["chr1", "chr2"], [1000, 2000]⟩ (by decide) "chr2").1
      1 "chr2" 2000 rfl rfl rfl (by
        intro j t1 hj ht1
        have hj0 : j = 0 := by omega
        subst hj0
        cases ht1
        decide)).2⟩

/-- The header `@HD VN:1.4` / `@RG ID:a` whose last line is not ended by a newline: the loop
comes back to `rg_start = 11` after every iteration. -/
theorem read_groups_loop_cycles (fuel : Nat) :
    ∀ result : List ReadGroup,
      read_groups_loop "@HD\tVN:1.4\n@RG\tID:a".toList fuel 11 result = none := by
  induction fuel with
  | zero =>
    intro result
    rfl
  | succ fuel ih =>
    intro result
    have h0 : (11 : Nat) ≠ npos := by decide
    have h1 : find "@HD\tVN:1.4\n@RG\tID:a".toList [Char.ofNat 10] ((11 + 1) % 2 ^ 64) = npos := by
      decide
    have h2 : find "@HD\tVN:1.4\n@RG\tID:a".toList RG_TAG ((npos + 1) % 2 ^ 64) = 11 := by
      decide
    rw [read_groups_loop, if_neg h0]
    simp only [h1, h2]
    exact ih _

/-- C14 (evaluation of the code): on the header `@HD VN:1.4` / `@RG ID:a`, whose last line is
not ended by a newline and which contains `@RG` once, the loop of `read_groups` never reaches
its exit, whatever the number of iterations allowed: `rg_end` is `npos`, `rg_end + 1` wraps to
0 and the search finds the same `@RG` again.  With the newline added the loop returns after
one iteration. -/
theorem read_groups_never_returns_without_final_newline :
    (∀ fuel : Nat, read_groups fuel "@HD\tVN:1.4\n@RG\tID:a" = none) ∧
    find "@HD\tVN:1.4\n@RG\tID:a".toList [Char.ofNat 10] 12 = npos ∧
    (npos + 1) % 2 ^ 64 = 0 ∧
    read_groups 2 "@HD\tVN:1.4\n@RG\tID:a\n" = some [⟨"@RG\tID:a"⟩] := by
  refine ⟨?_, by decide, by decide, by decide⟩
  intro fuel
  have h : find "@HD\tVN:1.4\n@RG\tID:a".toList RG_TAG 0 = 11 := by decide
  rw [read_groups, h]
  exact read_groups_loop_cycles fuel []

end SamHeader

end gamgee
